import Mathlib

/-!
Verification of the HyperMind tiered context memory store.

This file gives a shallow embedding of the `HyperMindService` Ember service:
a four-tier key/value store (`memoryStore`) with access-driven promotion,
age-driven demotion and value deduplication, a LIFO scope stack
(`scopeStack`), and an append-only context graph (`contextGraph`).

Modelling conventions:
- JavaScript objects used as string-keyed maps are modelled as
  insertion-ordered association lists (`Tier`): setting an existing key
  overwrites in place keeping its position, setting a fresh key appends,
  `delete` removes the pair.  This matches `Object.entries` iteration order.
- Timestamps (`new Date().toISOString()`, `Date.now()`) are modelled as a
  `now : Nat` argument in milliseconds, threaded into each operation.
- Values stored in the tiers are a JSON-like inductive `Value`, which can
  also wrap a `ScopeFrame` (scope archival stores the frame itself).
- `JSON.stringify` used by deduplication is modelled by `serializeValue`.
-/

namespace HyperMind

/-- Names of the four memory tiers of `memoryStore`. -/
inductive TierName where
  | hot
  | warm
  | cold
  | archived
  deriving DecidableEq, Repr

mutual

/-- JSON-like opaque values stored as contexts.  A `ScopeFrame` may itself be
stored as a value (this is what `_archiveScope` does). -/
inductive Value where
  | vnull : Value
  | vstr : String → Value
  | vint : Int → Value
  | vbool : Bool → Value
  | vobj : List (String × Value) → Value
  | vframe : ScopeFrame → Value

/-- A scope stack frame, as built by `pushScope`: id, caller config, the
(initially empty) `context` object, creation timestamp, and the parent frame
that was on top of the stack at push time (`null` when the stack was empty). -/
inductive ScopeFrame where
  | mk : String → Value → Value → Nat → Option ScopeFrame → ScopeFrame

end

/-- The `id` field of a frame. -/
def ScopeFrame.id : ScopeFrame → String
  | .mk i _ _ _ _ => i

/-- The `config` field of a frame. -/
def ScopeFrame.config : ScopeFrame → Value
  | .mk _ c _ _ _ => c

/-- The `context` field of a frame. -/
def ScopeFrame.context : ScopeFrame → Value
  | .mk _ _ cx _ _ => cx

/-- The `timestamp` field of a frame. -/
def ScopeFrame.timestamp : ScopeFrame → Nat
  | .mk _ _ _ t _ => t

/-- The `parent` field of a frame, fixed at creation. -/
def ScopeFrame.parent : ScopeFrame → Option ScopeFrame
  | .mk _ _ _ _ p => p

mutual

/-- Canonical serialization of values, modelling `JSON.stringify(entry.value)`
as used by `_deduplicateContexts`. -/
def serializeValue : Value → String
  | .vnull => "null"
  | .vstr s => "\"" ++ s ++ "\""
  | .vint n => toString n
  | .vbool b => if b then "true" else "false"
  | .vobj fs => "\x7b" ++ serializeFields fs ++ "\x7d"
  | .vframe f => serializeFrame f

/-- Serialization of the field list of an object value. -/
def serializeFields : List (String × Value) → String
  | [] => ""
  | (k, v) :: rest =>
    "\"" ++ k ++ "\":" ++ serializeValue v ++
      (if rest.isEmpty then "" else ",") ++ serializeFields rest

/-- Serialization of a scope frame (field order follows object creation order
in `pushScope`). -/
def serializeFrame : ScopeFrame → String
  | .mk i c cx t p =>
    "\x7b\"id\":\"" ++ i ++ "\",\"config\":" ++ serializeValue c ++
      ",\"context\":" ++ serializeValue cx ++
      ",\"timestamp\":" ++ toString t ++
      ",\"parent\":" ++ serializeParent p ++ "\x7d"

/-- Serialization of an optional parent frame (`null` when absent). -/
def serializeParent : Option ScopeFrame → String
  | none => "null"
  | some f => serializeFrame f

end

/-- Metadata attached to a context entry by `storeContext`; `lastAccessed` is
absent until the first retrieval. -/
structure Metadata where
  timestamp : Nat
  accessCount : Nat
  significance : Rat
  lastAccessed : Option Nat
  deriving Repr

/-- A context entry as created by `storeContext`. -/
structure ContextEntry where
  key : String
  value : Value
  metadata : Metadata

/-- One tier of the memory store: a string-keyed map in insertion order. -/
abbrev Tier := List (String × ContextEntry)

/-- Lookup of a key in a tier (`this.memoryStore[tier][key]`). -/
def tierGet : Tier → String → Option ContextEntry
  | [], _ => none
  | (k', e) :: rest, k => if k' = k then some e else tierGet rest k

/-- Truthiness test `if (this.memoryStore[tier][key])` — entries are objects,
hence truthy exactly when present. -/
def tierHas (t : Tier) (k : String) : Bool :=
  (tierGet t k).isSome

/-- Assignment `map[key] = entry`: overwrite in place when the key exists
(keeping its position), append otherwise.  (JS object keys are unique, so
replacing the first occurrence is the overwrite.) -/
def tierSet : Tier → String → ContextEntry → Tier
  | [], k, e => [(k, e)]
  | (k', e') :: rest, k, e =>
    if k' = k then (k, e) :: rest else (k', e') :: tierSet rest k e

/-- Deletion `delete map[key]` (also covers the rest-destructuring removal in
`_promoteIfNeeded`). -/
def tierDel (t : Tier) (k : String) : Tier :=
  t.filter (fun p => p.1 ≠ k)

/-- The four tiers of `memoryStore`. -/
structure MemoryStore where
  hot : Tier
  warm : Tier
  cold : Tier
  archived : Tier

/-- Read a tier by name. -/
def MemoryStore.getTier (m : MemoryStore) : TierName → Tier
  | .hot => m.hot
  | .warm => m.warm
  | .cold => m.cold
  | .archived => m.archived

/-- Replace a tier by name. -/
def MemoryStore.setTier (m : MemoryStore) : TierName → Tier → MemoryStore
  | .hot, t => { m with hot := t }
  | .warm, t => { m with warm := t }
  | .cold, t => { m with cold := t }
  | .archived, t => { m with archived := t }

/-- A node of `contextGraph.nodes`. -/
structure GraphNode where
  id : String
  type : String
  data : ScopeFrame

/-- An edge of `contextGraph.edges`. -/
structure GraphEdge where
  «from» : String
  «to» : String
  type : String

/-- The `contextGraph` relationship structure. -/
structure ContextGraph where
  nodes : List GraphNode
  edges : List GraphEdge

/-- The whole state of the `HyperMindService`. -/
structure HyperMindService where
  memoryStore : MemoryStore
  scopeStack : List ScopeFrame
  contextGraph : ContextGraph

/-- Options object accepted by `storeContext` (absent fields are `none`). -/
structure StoreOptions where
  tier : Option TierName := none
  significance : Option Rat := none

/-- The promotion order `['archived', 'cold', 'warm', 'hot']` of
`_promoteIfNeeded`, as an index. -/
def tierIndex : TierName → Nat
  | .archived => 0
  | .cold => 1
  | .warm => 2
  | .hot => 3

/-- `tierOrder[currentIndex + 1]`: one step up the promotion order.  (The
value at `hot` is irrelevant: promotion is guarded by `currentIndex < 3`.) -/
def nextTier : TierName → TierName
  | .archived => .cold
  | .cold => .warm
  | .warm => .hot
  | .hot => .hot

/-- The move performed by `_promoteIfNeeded` once the guard holds: insert
the entry into the next tier up (spread with overwrite), then remove the key
from the current tier (rest destructuring). -/
def promoteMove (m : MemoryStore) (key : String) (t : TierName) (e : ContextEntry) :
    MemoryStore :=
  (m.setTier (nextTier t) (tierSet (m.getTier (nextTier t)) key e)).setTier t
    (tierDel ((m.setTier (nextTier t)
      (tierSet (m.getTier (nextTier t)) key e)).getTier t) key)

/-- `_promoteIfNeeded(key, currentTier)`: when the entry exists, was accessed
more than 10 times and the tier is not already `hot` (`currentIndex < 3`),
move it one step up the order `archived→cold→warm→hot`. -/
def promoteIfNeeded (s : HyperMindService) (key : String) (currentTier : TierName) :
    HyperMindService :=
  match tierGet (s.memoryStore.getTier currentTier) key with
  | none => s
  | some entry =>
    if entry.metadata.accessCount > 10 ∧ tierIndex currentTier < 3 then
      { s with memoryStore := promoteMove s.memoryStore key currentTier entry }
    else s

/-- The fixed tier scan order of `retrieveContext`. -/
def scanOrder : List TierName := [.hot, .warm, .cold, .archived]

/-- The metadata update performed on a hit by `retrieveContext`:
`entry.metadata.accessCount++; entry.metadata.lastAccessed = now`. -/
def bumpEntry (e : ContextEntry) (now : Nat) : ContextEntry :=
  { e with metadata :=
    { e.metadata with
        accessCount := e.metadata.accessCount + 1
        lastAccessed := some now } }

/-- The in-place metadata mutation of a hit: the found entry is replaced by
its bumped version in the tier where it was found. -/
def bumpState (s : HyperMindService) (tier : TierName) (key : String)
    (e : ContextEntry) (now : Nat) : HyperMindService :=
  { s with memoryStore := s.memoryStore.setTier tier (tierSet (s.memoryStore.getTier tier) key (bumpEntry e now)) }

/-- The tier loop of `retrieveContext`: on the first tier containing the key,
update the access metadata, evaluate promotion, and return the stored value;
otherwise fall through to the next tier. -/
def retrieveLoop (s : HyperMindService) (now : Nat) (key : String) :
    List TierName → Option Value × HyperMindService
  | [] => (none, s)
  | tier :: rest =>
    match tierGet (s.memoryStore.getTier tier) key with
    | some entry =>
      (some entry.value, promoteIfNeeded (bumpState s tier key entry now) key tier)
    | none => retrieveLoop s now key rest

/-- `retrieveContext(key)`: scan `hot, warm, cold, archived`; `null` (here
`none`) when no tier contains the key. -/
def retrieveContext (s : HyperMindService) (now : Nat) (key : String) :
    Option Value × HyperMindService :=
  retrieveLoop s now key scanOrder

/-- The first tier of the scan order containing the key (the tier where
`retrieveContext` hits), for stating theorems. -/
def locate (s : HyperMindService) (key : String) : Option TierName :=
  scanOrder.find? (fun t => tierHas (s.memoryStore.getTier t) key)

/-- The demotion condition of `_optimizeMemory`:
`ageInHours > 24 && entry.metadata.accessCount < 5`.  For integer millisecond
ages, `age / 3600000 > 24` under JS float division is exactly
`age > 86400000`; entries timestamped in the future give a negative age in JS
and a truncated-to-zero age here, falsifying the condition either way. -/
def shouldDemote (now : Nat) (e : ContextEntry) : Bool :=
  decide (now - e.metadata.timestamp > 86400000) && decide (e.metadata.accessCount < 5)

/-- One iteration of the demotion loop of `_optimizeMemory`: move the hot
entry to warm when the condition holds. -/
def demoteStep (now : Nat) (m : MemoryStore) (p : String × ContextEntry) :
    MemoryStore :=
  if shouldDemote now p.2 then
    { m with warm := tierSet m.warm p.1 p.2, hot := tierDel m.hot p.1 }
  else m

/-- The demotion loop of `_optimizeMemory`, folded over a snapshot of the hot
tier (`Object.entries(this.memoryStore.hot)` is taken before any deletion). -/
def demoteFold (now : Nat) (l : List (String × ContextEntry)) (m : MemoryStore) :
    MemoryStore :=
  l.foldl (demoteStep now) m

/-- One iteration of the dedup loop of `_deduplicateContexts`: delete the
entry when its value serialization was already seen, else record it. -/
def dedupStep (acc : Tier × List String) (p : String × ContextEntry) :
    Tier × List String :=
  let vs := serializeValue p.2.value
  if vs ∈ acc.2 then (tierDel acc.1 p.1, acc.2) else (acc.1, vs :: acc.2)

/-- The per-tier dedup loop, folded over a snapshot of the tier with the live
tier as accumulator. -/
def dedupTier (t : Tier) (seen : List String) : Tier × List String :=
  t.foldl dedupStep (t, seen)

/-- `_deduplicateContexts()`: global value dedup over `hot, warm, cold` in
order, threading the seen-set; `archived` is not visited. -/
def deduplicateContexts (s : HyperMindService) : HyperMindService :=
  { s with memoryStore :=
    { s.memoryStore with
        hot := (dedupTier s.memoryStore.hot []).1
        warm := (dedupTier s.memoryStore.warm (dedupTier s.memoryStore.hot []).2).1
        cold := (dedupTier s.memoryStore.cold
          (dedupTier s.memoryStore.warm (dedupTier s.memoryStore.hot []).2).2).1 } }

/-- `_optimizeMemory()`: demote stale low-access hot entries to warm, then
deduplicate. -/
def optimizeMemory (s : HyperMindService) (now : Nat) : HyperMindService :=
  deduplicateContexts
    { s with memoryStore := demoteFold now s.memoryStore.hot s.memoryStore }

/-- The significance written by `storeContext`:
`options.significance || 1.0` (JS `||` maps a numeric 0 to the default). -/
def sigOf (options : StoreOptions) : Rat :=
  match options.significance with
  | some sg => if sg = 0 then 1 else sg
  | none => 1

/-- The fresh entry built by `storeContext`. -/
def mkEntry (now : Nat) (key : String) (value : Value) (options : StoreOptions) :
    ContextEntry :=
  { key := key, value := value, metadata := { timestamp := now, accessCount := 0, significance := sigOf options, lastAccessed := none } }

/-- `storeContext(key, value, options)`: insert a fresh entry (accessCount 0,
significance `options.significance || 1.0`, default tier `hot`) and trigger
the maintenance pass. -/
def storeContext (s : HyperMindService) (now : Nat) (key : String) (value : Value)
    (options : StoreOptions) : HyperMindService :=
  optimizeMemory { s with memoryStore := s.memoryStore.setTier (options.tier.getD .hot) (tierSet (s.memoryStore.getTier (options.tier.getD .hot)) key (mkEntry now key value options)) } now

/-- `_updateContextGraph(scope)`: append one node, and one edge when the
frame has a parent. -/
def updateContextGraph (s : HyperMindService) (frame : ScopeFrame) :
    HyperMindService :=
  let g1 : ContextGraph :=
    { s.contextGraph with nodes :=
      s.contextGraph.nodes ++ [{ id := frame.id, type := "scope", data := frame }] }
  let g2 : ContextGraph :=
    match frame.parent with
    | some p =>
      { g1 with edges :=
        g1.edges ++ [{ «from» := p.id, «to» := frame.id, type := "parent-child" }] }
    | none => g1
  { s with contextGraph := g2 }

/-- `pushScope(scopeConfig)`: build a frame whose parent is the current top
of the stack (`null` when empty), append it, update the graph, return it.
The generated id and the timestamp are passed in explicitly. -/
def pushScope (s : HyperMindService) (config : Value) (id : String) (now : Nat) :
    ScopeFrame × HyperMindService :=
  let frame : ScopeFrame := .mk id config (.vobj []) now s.scopeStack.getLast?
  let s1 := { s with scopeStack := s.scopeStack ++ [frame] }
  (frame, updateContextGraph s1 frame)

/-- `_archiveScope(scope)`: store the frame under `"scope_" + scope.id` in
the archived tier with default significance. -/
def archiveScope (s : HyperMindService) (scope : ScopeFrame) (now : Nat) :
    HyperMindService :=
  storeContext s now ("scope_" ++ scope.id) (.vframe scope)
    { tier := some .archived }

/-- `popScope()`: throw on an empty stack (returning the state untouched);
otherwise remove the tail frame, archive it, and return it. -/
def popScope (s : HyperMindService) (now : Nat) :
    Except String ScopeFrame × HyperMindService :=
  match s.scopeStack.getLast? with
  | none => (.error "Cannot pop from empty scope stack", s)
  | some popped =>
    (.ok popped, archiveScope { s with scopeStack := s.scopeStack.dropLast } popped now)

/-- `getCurrentScope()`: the tail frame, or `null` when empty. -/
def getCurrentScope (s : HyperMindService) : Option ScopeFrame :=
  s.scopeStack.getLast?

/-- Arguments of one `pushScope` call in a sequence (config, generated id,
timestamp). -/
structure PushArgs where
  config : Value
  id : String
  now : Nat

/-- A sequence of `pushScope` calls; returns the final state and the frames
in push order. -/
def pushMany (s : HyperMindService) : List PushArgs → HyperMindService × List ScopeFrame
  | [] => (s, [])
  | a :: rest =>
    let r := pushScope s a.config a.id a.now
    let r2 := pushMany r.2 rest
    (r2.1, r.1 :: r2.2)

/-- A sequence of `popScope` calls (one per timestamp); `none` as soon as a
pop fails, otherwise the popped frames in pop order and the final state. -/
def popMany (s : HyperMindService) : List Nat → Option (List ScopeFrame × HyperMindService)
  | [] => some ([], s)
  | now :: rest =>
    match popScope s now with
    | (.error _, _) => none
    | (.ok f, s1) => (popMany s1 rest).map (fun r => (f :: r.1, r.2))

/-! ### Association-list (tier map) lemmas -/

theorem tierGet_tierSet_self (t : Tier) (k : String) (e : ContextEntry) :
    tierGet (tierSet t k e) k = some e := by
  induction t with
  | nil => simp [tierSet, tierGet]
  | cons hd tl ih =>
    cases hd with
    | mk k1 e1 =>
      by_cases hk : k1 = k
      · simp [tierSet, tierGet, hk]
      · simpa [tierSet, tierGet, hk] using ih

theorem tierGet_tierSet_ne (t : Tier) (k k' : String) (e : ContextEntry)
    (h : k' ≠ k) : tierGet (tierSet t k e) k' = tierGet t k' := by
  have hk'k : ¬k = k' := fun hc => h hc.symm
  induction t with
  | nil => simp [tierSet, tierGet, hk'k]
  | cons hd tl ih =>
    cases hd with
    | mk k1 e1 =>
      by_cases hk : k1 = k
      · simp [tierSet, tierGet, hk, hk'k]
      · by_cases hk' : k1 = k'
        · simp [tierSet, tierGet, hk', h]
        · simpa [tierSet, tierGet, hk, hk'] using ih

theorem tierGet_tierDel_self (t : Tier) (k : String) :
    tierGet (tierDel t k) k = none := by
  induction t with
  | nil => simp [tierDel, tierGet]
  | cons hd tl ih =>
    cases hd with
    | mk k1 e1 =>
      by_cases hk : k1 = k
      · simpa [tierDel, hk] using ih
      · simpa [tierDel, tierGet, hk] using ih

theorem tierGet_tierDel_ne (t : Tier) (k k' : String) (h : k' ≠ k) :
    tierGet (tierDel t k) k' = tierGet t k' := by
  have hk'k : ¬k = k' := fun hc => h hc.symm
  induction t with
  | nil => simp [tierDel, tierGet]
  | cons hd tl ih =>
    cases hd with
    | mk k1 e1 =>
      by_cases hk : k1 = k
      · simpa [tierDel, tierGet, hk, hk'k] using ih
      · by_cases hk' : k1 = k'
        · simp [tierDel, tierGet, hk', h]
        · simpa [tierDel, tierGet, hk, hk'] using ih

theorem tierHas_of_mem (t : Tier) (p : String × ContextEntry) (hp : p ∈ t) :
    tierHas t p.1 = true := by
  induction t with
  | nil => cases hp
  | cons hd tl ih =>
    cases hd with
    | mk k1 e1 =>
      rcases List.mem_cons.mp hp with hp | hp
      · subst hp
        simp [tierHas, tierGet]
      · by_cases hk : k1 = p.1
        · simp [tierHas, tierGet, hk]
        · simpa [tierHas, tierGet, hk] using ih hp

theorem not_mem_key_of_not_tierHas (t : Tier) (k : String)
    (h : tierHas t k = false) : ∀ p ∈ t, p.1 ≠ k := by
  intro p hp hk
  rw [← hk] at h
  rw [tierHas_of_mem t p hp] at h
  cases h

/-! ### MemoryStore tier selector lemmas -/

theorem getTier_setTier_self (m : MemoryStore) (t : TierName) (x : Tier) :
    (m.setTier t x).getTier t = x := by
  cases t <;> rfl

theorem getTier_setTier_ne (m : MemoryStore) (t t' : TierName) (x : Tier)
    (h : t' ≠ t) : (m.setTier t x).getTier t' = m.getTier t' := by
  cases t <;> cases t' <;> first | rfl | exact absurd rfl h

/-! ### Demotion loop lemmas -/

theorem demoteFold_cold (now : Nat) (l : List (String × ContextEntry))
    (m : MemoryStore) : (demoteFold now l m).cold = m.cold := by
  induction l generalizing m with
  | nil => rfl
  | cons hd tl ih =>
    show (demoteFold now tl (demoteStep now m hd)).cold = m.cold
    rw [ih]
    unfold demoteStep
    split <;> rfl

theorem demoteFold_archived (now : Nat) (l : List (String × ContextEntry))
    (m : MemoryStore) : (demoteFold now l m).archived = m.archived := by
  induction l generalizing m with
  | nil => rfl
  | cons hd tl ih =>
    show (demoteFold now tl (demoteStep now m hd)).archived = m.archived
    rw [ih]
    unfold demoteStep
    split <;> rfl

theorem demoteFold_hot_none (now : Nat) (l : List (String × ContextEntry))
    (m : MemoryStore) (k : String) (h : tierGet m.hot k = none) :
    tierGet (demoteFold now l m).hot k = none := by
  induction l generalizing m with
  | nil => exact h
  | cons hd tl ih =>
    show tierGet (demoteFold now tl (demoteStep now m hd)).hot k = none
    apply ih
    unfold demoteStep
    split
    · show tierGet (tierDel m.hot hd.1) k = none
      by_cases hk : k = hd.1
      · subst hk
        exact tierGet_tierDel_self _ _
      · rw [tierGet_tierDel_ne _ _ _ hk]
        exact h
    · exact h

theorem demoteFold_hot_del (now : Nat) (l : List (String × ContextEntry))
    (m : MemoryStore) (k : String)
    (h : ∃ p ∈ l, p.1 = k ∧ shouldDemote now p.2 = true) :
    tierGet (demoteFold now l m).hot k = none := by
  induction l generalizing m with
  | nil => rcases h with ⟨p, hp, _⟩; cases hp
  | cons hd tl ih =>
    show tierGet (demoteFold now tl (demoteStep now m hd)).hot k = none
    rcases h with ⟨p, hp, hpk, hpd⟩
    rcases List.mem_cons.mp hp with hp | hp
    · subst hp
      apply demoteFold_hot_none
      unfold demoteStep
      split
      · show tierGet (tierDel m.hot p.1) k = none
        rw [hpk]
        exact tierGet_tierDel_self _ _
      · rename_i hc
        exact absurd hpd hc
    · exact ih _ ⟨p, hp, hpk, hpd⟩

theorem demoteFold_hot_keep (now : Nat) (l : List (String × ContextEntry))
    (m : MemoryStore) (k : String)
    (h : ∀ p ∈ l, p.1 = k → shouldDemote now p.2 = false) :
    tierGet (demoteFold now l m).hot k = tierGet m.hot k := by
  induction l generalizing m with
  | nil => rfl
  | cons hd tl ih =>
    show tierGet (demoteFold now tl (demoteStep now m hd)).hot k = tierGet m.hot k
    rw [ih _ (fun p hp => h p (List.mem_cons_of_mem hd hp))]
    unfold demoteStep
    split
    · rename_i hdem
      by_cases hk : hd.1 = k
      · rw [h hd (List.mem_cons_self hd tl) hk] at hdem
        cases hdem
      · exact tierGet_tierDel_ne _ _ _ (fun hc => hk hc.symm)
    · rfl

theorem demoteFold_warm_keep (now : Nat) (l : List (String × ContextEntry))
    (m : MemoryStore) (k : String)
    (h : ∀ p ∈ l, p.1 = k → shouldDemote now p.2 = false) :
    tierGet (demoteFold now l m).warm k = tierGet m.warm k := by
  induction l generalizing m with
  | nil => rfl
  | cons hd tl ih =>
    show tierGet (demoteFold now tl (demoteStep now m hd)).warm k = tierGet m.warm k
    rw [ih _ (fun p hp => h p (List.mem_cons_of_mem hd hp))]
    unfold demoteStep
    split
    · rename_i hdem
      by_cases hk : hd.1 = k
      · rw [h hd (List.mem_cons_self hd tl) hk] at hdem
        cases hdem
      · exact tierGet_tierSet_ne _ _ _ _ (fun hc => hk hc.symm)
    · rfl

theorem demoteFold_warm_keyfree (now : Nat) (l : List (String × ContextEntry))
    (m : MemoryStore) (k : String) (h : ∀ p ∈ l, p.1 ≠ k) :
    tierGet (demoteFold now l m).warm k = tierGet m.warm k :=
  demoteFold_warm_keep now l m k (fun p hp hk => absurd hk (h p hp))

theorem demoteFold_warm_moved (now : Nat) (l : List (String × ContextEntry))
    (m : MemoryStore) (k : String) (e : ContextEntry)
    (hnd : (l.map Prod.fst).Nodup) (hmem : (k, e) ∈ l)
    (hdem : shouldDemote now e = true) :
    tierGet (demoteFold now l m).warm k = some e := by
  induction l generalizing m with
  | nil => cases hmem
  | cons hd tl ih =>
    show tierGet (demoteFold now tl (demoteStep now m hd)).warm k = some e
    rcases List.mem_cons.mp hmem with hp | hp
    · have hfresh : ∀ p ∈ tl, p.1 ≠ k := by
        intro p hptl hpk
        have : k ∈ tl.map Prod.fst := hpk ▸ List.mem_map_of_mem Prod.fst hptl
        rw [← hp] at hnd
        exact (List.nodup_cons.mp hnd).1 this
      rw [demoteFold_warm_keyfree now tl _ k hfresh]
      unfold demoteStep
      rw [← hp]
      split
      · show tierGet (tierSet m.warm (k, e).1 (k, e).2) k = some e
        exact tierGet_tierSet_self _ _ _
      · rename_i hc
        exact absurd hdem hc
    · exact ih _ (List.nodup_cons.mp hnd).2 hp

theorem demoteFold_warm_from (now : Nat) (l : List (String × ContextEntry))
    (m : MemoryStore) (k : String)
    (hw : tierGet m.warm k = none)
    (hl : ∀ p ∈ l, p.1 ≠ k) :
    tierGet (demoteFold now l m).warm k = none := by
  rw [demoteFold_warm_keyfree now l m k hl]
  exact hw

/-! ### Deduplication loop: closed forms -/

/-- The fold underlying `dedupTier`, with an arbitrary accumulator. -/
def dedupFold (l : List (String × ContextEntry)) (acc : Tier) (seen : List String) :
    Tier × List String :=
  l.foldl dedupStep (acc, seen)

/-- Keys deleted by one dedup sweep over snapshot `l` with initial seen-set
`seen`. -/
def dedupDeleted : List (String × ContextEntry) → List String → List String
  | [], _ => []
  | (k, e) :: rest, seen =>
    if serializeValue e.value ∈ seen then k :: dedupDeleted rest seen
    else dedupDeleted rest (serializeValue e.value :: seen)

/-- The seen-set after one dedup sweep. -/
def dedupSeen : List (String × ContextEntry) → List String → List String
  | [], seen => seen
  | (_, e) :: rest, seen =>
    if serializeValue e.value ∈ seen then dedupSeen rest seen
    else dedupSeen rest (serializeValue e.value :: seen)

/-- The entries surviving one dedup sweep: the first occurrence of each value
serialization not already seen, in order. -/
def survivors : List (String × ContextEntry) → List String → List (String × ContextEntry)
  | [], _ => []
  | (k, e) :: rest, seen =>
    if serializeValue e.value ∈ seen then survivors rest seen
    else (k, e) :: survivors rest (serializeValue e.value :: seen)

/-- Removal of a set of keys from a tier. -/
def tierDelAll (t : Tier) (ks : List String) : Tier :=
  t.filter (fun p => p.1 ∉ ks)

theorem tierDelAll_nil (t : Tier) : tierDelAll t [] = t := by
  induction t with
  | nil => rfl
  | cons hd tl ih => simp [tierDelAll]

theorem tierDel_tierDelAll (t : Tier) (k : String) (ks : List String) :
    tierDelAll (tierDel t k) ks = tierDelAll t (k :: ks) := by
  unfold tierDelAll tierDel
  rw [List.filter_filter]
  apply List.filter_congr
  intro p _
  by_cases hk : p.1 = k <;> by_cases hks : p.1 ∈ ks <;> simp [hk, hks]

theorem dedupFold_eq (l : List (String × ContextEntry)) (acc : Tier)
    (seen : List String) :
    dedupFold l acc seen = (tierDelAll acc (dedupDeleted l seen), dedupSeen l seen) := by
  unfold dedupFold
  induction l generalizing acc seen with
  | nil => simp [dedupDeleted, dedupSeen, tierDelAll_nil]
  | cons hd tl ih =>
    cases hd with
    | mk k e =>
      rw [List.foldl_cons]
      by_cases hs : serializeValue e.value ∈ seen
      · rw [show dedupStep (acc, seen) (k, e) = (tierDel acc k, seen) from by
          simp [dedupStep, hs]]
        rw [ih, tierDel_tierDelAll]
        simp [dedupDeleted, dedupSeen, hs]
      · rw [show dedupStep (acc, seen) (k, e) =
            (acc, serializeValue e.value :: seen) from by simp [dedupStep, hs]]
        rw [ih]
        simp [dedupDeleted, dedupSeen, hs]

theorem mem_dedupDeleted_keys (l : List (String × ContextEntry))
    (seen : List String) (x : String) (hx : x ∈ dedupDeleted l seen) :
    x ∈ l.map Prod.fst := by
  induction l generalizing seen with
  | nil => cases hx
  | cons hd tl ih =>
    cases hd with
    | mk k e =>
      by_cases hs : serializeValue e.value ∈ seen
      · rw [dedupDeleted, if_pos hs] at hx
        rcases List.mem_cons.mp hx with hx | hx
        · simp [hx]
        · exact List.mem_cons_of_mem _ (ih _ hx)
      · rw [dedupDeleted, if_neg hs] at hx
        exact List.mem_cons_of_mem _ (ih _ hx)

theorem tierDelAll_dedupDeleted (l : List (String × ContextEntry))
    (seen : List String) (hnd : (l.map Prod.fst).Nodup) :
    tierDelAll l (dedupDeleted l seen) = survivors l seen := by
  induction l generalizing seen with
  | nil => rfl
  | cons hd tl ih =>
    cases hd with
    | mk k e =>
      have hknotin : k ∉ tl.map Prod.fst := (List.nodup_cons.mp hnd).1
      have hndtl : (tl.map Prod.fst).Nodup := (List.nodup_cons.mp hnd).2
      by_cases hs : serializeValue e.value ∈ seen
      · rw [dedupDeleted, if_pos hs, survivors, if_pos hs]
        unfold tierDelAll
        rw [List.filter_cons_of_neg (by simp)]
        rw [show ∀ D, List.filter (fun p => p.1 ∉ (k :: D)) tl =
            List.filter (fun p => p.1 ∉ D) tl from ?_]
        · exact ih seen hndtl
        · intro D
          apply List.filter_congr
          intro p hp
          have : p.1 ≠ k := by
            intro hc
            exact hknotin (hc ▸ List.mem_map_of_mem Prod.fst hp)
          simp [this]
      · rw [dedupDeleted, if_neg hs, survivors, if_neg hs]
        unfold tierDelAll
        rw [List.filter_cons_of_pos (by
          simp only [decide_eq_true_eq]
          intro hc
          exact hknotin (mem_dedupDeleted_keys _ _ _ hc))]
        rw [show List.filter
            (fun p => p.1 ∉ dedupDeleted tl (serializeValue e.value :: seen)) tl =
            tierDelAll tl (dedupDeleted tl (serializeValue e.value :: seen)) from rfl]
        rw [ih _ hndtl]

theorem tierGet_tierDelAll (t : Tier) (ks : List String) (k : String) :
    tierGet (tierDelAll t ks) k = if k ∈ ks then none else tierGet t k := by
  induction t with
  | nil => by_cases h : k ∈ ks <;> simp [tierDelAll, tierGet, h]
  | cons hd tl ih =>
    cases hd with
    | mk k1 e1 =>
      by_cases h1 : k1 ∈ ks
      · rw [show tierDelAll ((k1, e1) :: tl) ks = tierDelAll tl ks from by
          simp [tierDelAll, h1]]
        rw [ih]
        by_cases hk : k ∈ ks
        · simp [hk]
        · have : ¬k1 = k := fun hc => hk (hc ▸ h1)
          simp [hk, tierGet, this]
      · rw [show tierDelAll ((k1, e1) :: tl) ks = (k1, e1) :: tierDelAll tl ks from by
          simp [tierDelAll, h1]]
        by_cases hk1 : k1 = k
        · have : ¬k ∈ ks := hk1 ▸ h1
          simp [tierGet, hk1, this]
        · simpa [tierGet, hk1] using ih

/-- The tier where `deduplicateContexts` can only delete: lookup afterwards
is lookup before, unless the key was deleted. -/
theorem dedupTier_fst (t : Tier) (seen : List String) :
    (dedupTier t seen).1 = tierDelAll t (dedupDeleted t seen) := by
  have h := dedupFold_eq t t seen
  unfold dedupFold at h
  rw [show dedupTier t seen = t.foldl dedupStep (t, seen) from rfl, h]

theorem dedupTier_snd (t : Tier) (seen : List String) :
    (dedupTier t seen).2 = dedupSeen t seen := by
  have h := dedupFold_eq t t seen
  unfold dedupFold at h
  rw [show dedupTier t seen = t.foldl dedupStep (t, seen) from rfl, h]

theorem dedupTier_eq (t : Tier) (seen : List String)
    (hnd : (t.map Prod.fst).Nodup) :
    (dedupTier t seen).1 = survivors t seen := by
  rw [dedupTier_fst, tierDelAll_dedupDeleted t seen hnd]

/-! ### Survivors properties -/

/-- Number of entries of a list whose value serialization is `v`. -/
def countSer (l : List (String × ContextEntry)) (v : String) : Nat :=
  (l.filter (fun p => serializeValue p.2.value = v)).length

/-- First entry of a list whose value serialization is `v`. -/
def findSer (l : List (String × ContextEntry)) (v : String) :
    Option (String × ContextEntry) :=
  l.find? (fun p => serializeValue p.2.value = v)

theorem countSer_survivors (l : List (String × ContextEntry))
    (seen : List String) (v : String) :
    countSer (survivors l seen) v = if v ∈ seen then 0 else min 1 (countSer l v) := by
  induction l generalizing seen with
  | nil => by_cases h : v ∈ seen <;> simp [survivors, countSer, h]
  | cons hd tl ih =>
    cases hd with
    | mk k e =>
      by_cases hs : serializeValue e.value ∈ seen
      · rw [survivors, if_pos hs, ih]
        by_cases hv : v ∈ seen
        · simp [hv]
        · have hne : ¬serializeValue e.value = v := fun hc => hv (hc ▸ hs)
          simp [hv, countSer, hne]
      · rw [survivors, if_neg hs]
        by_cases hv : serializeValue e.value = v
        · subst hv
          rw [show countSer ((k, e) :: survivors tl (serializeValue e.value :: seen))
              (serializeValue e.value) =
              1 + countSer (survivors tl (serializeValue e.value :: seen))
                (serializeValue e.value) from by simp [countSer, Nat.add_comm]]
          rw [ih, if_pos (List.mem_cons_self _ _), if_neg hs]
          rw [show countSer ((k, e) :: tl) (serializeValue e.value) =
              1 + countSer tl (serializeValue e.value) from by
                simp [countSer, Nat.add_comm]]
          omega
        · rw [show countSer ((k, e) :: survivors tl (serializeValue e.value :: seen)) v =
              countSer (survivors tl (serializeValue e.value :: seen)) v from by
                simp [countSer, hv]]
          rw [ih]
          have hmem : v ∈ serializeValue e.value :: seen ↔ v ∈ seen := by
            constructor
            · intro h
              rcases List.mem_cons.mp h with h | h
              · exact absurd h.symm hv
              · exact h
            · exact fun h => List.mem_cons_of_mem _ h
          by_cases hvs : v ∈ seen
          · simp [hvs, hmem]
          · rw [if_neg (fun hc => hvs (hmem.mp hc)), if_neg hvs]
            rw [show countSer ((k, e) :: tl) v = countSer tl v from by
              simp [countSer, hv]]

theorem findSer_survivors (l : List (String × ContextEntry))
    (seen : List String) (v : String) (hv : v ∉ seen) :
    findSer (survivors l seen) v = findSer l v := by
  induction l generalizing seen with
  | nil => simp [survivors, findSer]
  | cons hd tl ih =>
    cases hd with
    | mk k e =>
      by_cases hs : serializeValue e.value ∈ seen
      · have hne : ¬serializeValue e.value = v := fun hc => hv (hc ▸ hs)
        rw [survivors, if_pos hs, ih _ hv]
        simp [findSer, hne]
      · by_cases hd : serializeValue e.value = v
        · rw [survivors, if_neg hs]
          unfold findSer
          rw [List.find?_cons_of_pos _ (by simp [hd]),
            List.find?_cons_of_pos _ (by simp [hd])]
        · rw [survivors, if_neg hs]
          unfold findSer
          rw [List.find?_cons_of_neg _ (by simp [hd]),
            List.find?_cons_of_neg _ (by simp [hd])]
          exact ih _ (by
            intro hc
            rcases List.mem_cons.mp hc with hc | hc
            · exact hd hc.symm
            · exact hv hc)

theorem survivors_append (a b : List (String × ContextEntry)) (seen : List String) :
    survivors (a ++ b) seen = survivors a seen ++ survivors b (dedupSeen a seen) := by
  induction a generalizing seen with
  | nil => simp [survivors, dedupSeen]
  | cons hd tl ih =>
    cases hd with
    | mk k e =>
      by_cases hs : serializeValue e.value ∈ seen
      · simp only [List.cons_append, survivors, dedupSeen, if_pos hs]
        exact ih seen
      · simp only [List.cons_append, survivors, dedupSeen, if_neg hs]
        rw [List.append_eq, ih]

theorem dedupSeen_append (a b : List (String × ContextEntry)) (seen : List String) :
    dedupSeen (a ++ b) seen = dedupSeen b (dedupSeen a seen) := by
  induction a generalizing seen with
  | nil => simp [dedupSeen]
  | cons hd tl ih =>
    cases hd with
    | mk k e =>
      by_cases hs : serializeValue e.value ∈ seen <;>
        simp only [List.cons_append, dedupSeen, if_pos, if_neg, hs, ite_true,
          ite_false] <;> exact ih _

/-! ### Component preservation -/

theorem deduplicateContexts_scopeStack (s : HyperMindService) :
    (deduplicateContexts s).scopeStack = s.scopeStack := rfl

theorem deduplicateContexts_contextGraph (s : HyperMindService) :
    (deduplicateContexts s).contextGraph = s.contextGraph := rfl

theorem deduplicateContexts_archived (s : HyperMindService) :
    (deduplicateContexts s).memoryStore.archived = s.memoryStore.archived := rfl

theorem optimizeMemory_scopeStack (s : HyperMindService) (now : Nat) :
    (optimizeMemory s now).scopeStack = s.scopeStack := rfl

theorem optimizeMemory_contextGraph (s : HyperMindService) (now : Nat) :
    (optimizeMemory s now).contextGraph = s.contextGraph := rfl

theorem optimizeMemory_archived (s : HyperMindService) (now : Nat) :
    (optimizeMemory s now).memoryStore.archived = s.memoryStore.archived := by
  show (demoteFold now s.memoryStore.hot s.memoryStore).archived = s.memoryStore.archived
  exact demoteFold_archived now _ _

theorem storeContext_scopeStack (s : HyperMindService) (now : Nat) (k : String)
    (v : Value) (o : StoreOptions) :
    (storeContext s now k v o).scopeStack = s.scopeStack := rfl

theorem storeContext_contextGraph (s : HyperMindService) (now : Nat) (k : String)
    (v : Value) (o : StoreOptions) :
    (storeContext s now k v o).contextGraph = s.contextGraph := rfl

theorem promoteIfNeeded_scopeStack (s : HyperMindService) (k : String) (t : TierName) :
    (promoteIfNeeded s k t).scopeStack = s.scopeStack := by
  unfold promoteIfNeeded
  split
  · rfl
  · split <;> rfl

theorem promoteIfNeeded_contextGraph (s : HyperMindService) (k : String) (t : TierName) :
    (promoteIfNeeded s k t).contextGraph = s.contextGraph := by
  unfold promoteIfNeeded
  split
  · rfl
  · split <;> rfl

theorem retrieveLoop_scopeStack (s : HyperMindService) (now : Nat) (key : String)
    (ts : List TierName) : (retrieveLoop s now key ts).2.scopeStack = s.scopeStack := by
  induction ts with
  | nil => rfl
  | cons t rest ih =>
    unfold retrieveLoop
    split
    · rw [promoteIfNeeded_scopeStack]
      rfl
    · exact ih

theorem retrieveLoop_contextGraph (s : HyperMindService) (now : Nat) (key : String)
    (ts : List TierName) : (retrieveLoop s now key ts).2.contextGraph = s.contextGraph := by
  induction ts with
  | nil => rfl
  | cons t rest ih =>
    unfold retrieveLoop
    split
    · rw [promoteIfNeeded_contextGraph]
      rfl
    · exact ih

theorem retrieveContext_scopeStack (s : HyperMindService) (now : Nat) (key : String) :
    (retrieveContext s now key).2.scopeStack = s.scopeStack :=
  retrieveLoop_scopeStack s now key scanOrder

theorem retrieveContext_contextGraph (s : HyperMindService) (now : Nat) (key : String) :
    (retrieveContext s now key).2.contextGraph = s.contextGraph :=
  retrieveLoop_contextGraph s now key scanOrder

theorem updateContextGraph_memoryStore (s : HyperMindService) (f : ScopeFrame) :
    (updateContextGraph s f).memoryStore = s.memoryStore := by
  unfold updateContextGraph
  split <;> rfl

theorem updateContextGraph_scopeStack (s : HyperMindService) (f : ScopeFrame) :
    (updateContextGraph s f).scopeStack = s.scopeStack := by
  unfold updateContextGraph
  split <;> rfl

/-! ### Promotion analysis -/

theorem nextTier_ne (t : TierName) (ht : t ≠ .hot) : nextTier t ≠ t := by
  cases t <;> simp [nextTier] at *

theorem tierIndex_lt_three (t : TierName) (ht : t ≠ .hot) : tierIndex t < 3 := by
  cases t <;> first | exact absurd rfl ht | decide

theorem promoteMove_get_self (m : MemoryStore) (k : String) (t : TierName)
    (e : ContextEntry) : tierGet ((promoteMove m k t e).getTier t) k = none := by
  unfold promoteMove
  rw [getTier_setTier_self]
  exact tierGet_tierDel_self _ _

theorem promoteMove_get_next (m : MemoryStore) (k : String) (t : TierName)
    (e : ContextEntry) (hne : nextTier t ≠ t) :
    tierGet ((promoteMove m k t e).getTier (nextTier t)) k = some e := by
  unfold promoteMove
  rw [getTier_setTier_ne _ _ _ _ hne, getTier_setTier_self]
  exact tierGet_tierSet_self _ _ _

theorem promoteMove_get_other (m : MemoryStore) (k : String) (t : TierName)
    (e : ContextEntry) (u : TierName) (hut : u ≠ t) (hun : u ≠ nextTier t) :
    (promoteMove m k t e).getTier u = m.getTier u := by
  unfold promoteMove
  rw [getTier_setTier_ne _ _ _ _ hut, getTier_setTier_ne _ _ _ _ hun]

theorem promoteIfNeeded_eq_move (s : HyperMindService) (k : String) (t : TierName)
    (e : ContextEntry) (hget : tierGet (s.memoryStore.getTier t) k = some e)
    (hcnt : e.metadata.accessCount > 10) (ht : t ≠ .hot) :
    promoteIfNeeded s k t = { s with memoryStore := promoteMove s.memoryStore k t e } := by
  unfold promoteIfNeeded
  simp only [hget]
  rw [if_pos ⟨hcnt, tierIndex_lt_three t ht⟩]

theorem promoteIfNeeded_noop_hot (s : HyperMindService) (k : String)
    (e : ContextEntry) (hget : tierGet (s.memoryStore.getTier .hot) k = some e) :
    promoteIfNeeded s k .hot = s := by
  unfold promoteIfNeeded
  simp only [hget]
  rw [if_neg (by simp [tierIndex])]

theorem promoteIfNeeded_noop_low (s : HyperMindService) (k : String) (t : TierName)
    (e : ContextEntry) (hget : tierGet (s.memoryStore.getTier t) k = some e)
    (hcnt : ¬e.metadata.accessCount > 10) :
    promoteIfNeeded s k t = s := by
  unfold promoteIfNeeded
  simp only [hget]
  rw [if_neg (fun hc => hcnt hc.1)]

theorem promoteIfNeeded_noop_missing (s : HyperMindService) (k : String)
    (t : TierName) (hget : tierGet (s.memoryStore.getTier t) k = none) :
    promoteIfNeeded s k t = s := by
  unfold promoteIfNeeded
  simp only [hget]

/-! ### Retrieval analysis -/

theorem retrieveLoop_cons_none (s : HyperMindService) (now : Nat) (key : String)
    (t : TierName) (rest : List TierName)
    (h : tierGet (s.memoryStore.getTier t) key = none) :
    retrieveLoop s now key (t :: rest) = retrieveLoop s now key rest := by
  rw [retrieveLoop]
  simp only [h]

theorem retrieveLoop_cons_some (s : HyperMindService) (now : Nat) (key : String)
    (t : TierName) (rest : List TierName) (e : ContextEntry)
    (h : tierGet (s.memoryStore.getTier t) key = some e) :
    retrieveLoop s now key (t :: rest) =
      (some e.value, promoteIfNeeded (bumpState s t key e now) key t) := by
  rw [retrieveLoop]
  simp only [h]

theorem locate_eq (s : HyperMindService) (k : String) :
    locate s k =
      if tierHas s.memoryStore.hot k then some .hot
      else if tierHas s.memoryStore.warm k then some .warm
      else if tierHas s.memoryStore.cold k then some .cold
      else if tierHas s.memoryStore.archived k then some .archived
      else none := by
  unfold locate scanOrder
  cases h1 : tierHas s.memoryStore.hot k <;>
    cases h2 : tierHas s.memoryStore.warm k <;>
      cases h3 : tierHas s.memoryStore.cold k <;>
        cases h4 : tierHas s.memoryStore.archived k <;>
          simp [List.find?, MemoryStore.getTier, h1, h2, h3, h4]

theorem tierGet_eq_none_of_not_has (t : Tier) (k : String)
    (h : tierHas t k = false) : tierGet t k = none := by
  cases hget : tierGet t k with
  | none => rfl
  | some e =>
    unfold tierHas at h
    rw [hget] at h
    simp at h

theorem tierGet_isSome_of_has (t : Tier) (k : String) (h : tierHas t k = true) :
    ∃ e, tierGet t k = some e := by
  cases hget : tierGet t k with
  | none =>
    unfold tierHas at h
    rw [hget] at h
    simp at h
  | some e => exact ⟨e, rfl⟩

theorem retrieve_miss (s : HyperMindService) (now : Nat) (k : String)
    (h : locate s k = none) : retrieveContext s now k = (none, s) := by
  rw [locate_eq] at h
  split_ifs at h with h1 h2 h3 h4
  rw [retrieveContext, show scanOrder = [.hot, .warm, .cold, .archived] from rfl]
  rw [retrieveLoop_cons_none _ _ _ _ _
    (tierGet_eq_none_of_not_has _ _ (by simpa using h1))]
  rw [retrieveLoop_cons_none _ _ _ _ _
    (tierGet_eq_none_of_not_has _ _ (by simpa using h2))]
  rw [retrieveLoop_cons_none _ _ _ _ _
    (tierGet_eq_none_of_not_has _ _ (by simpa using h3))]
  rw [retrieveLoop_cons_none _ _ _ _ _
    (tierGet_eq_none_of_not_has _ _ (by simpa using h4))]
  rfl

theorem locate_some_has (s : HyperMindService) (k : String) (t : TierName)
    (h : locate s k = some t) : tierHas (s.memoryStore.getTier t) k = true := by
  rw [locate_eq] at h
  split_ifs at h with h1 h2 h3 h4 <;> cases h
  · exact h1
  · exact h2
  · exact h3
  · exact h4

theorem retrieve_hit (s : HyperMindService) (now : Nat) (k : String) (t : TierName)
    (e : ContextEntry) (hloc : locate s k = some t)
    (hget : tierGet (s.memoryStore.getTier t) k = some e) :
    retrieveContext s now k =
      (some e.value, promoteIfNeeded (bumpState s t k e now) k t) := by
  rw [locate_eq] at hloc
  rw [retrieveContext, show scanOrder = [.hot, .warm, .cold, .archived] from rfl]
  split_ifs at hloc with h1 h2 h3 h4
  · cases hloc
    rw [retrieveLoop_cons_some _ _ _ _ _ _ hget]
  · cases hloc
    rw [retrieveLoop_cons_none _ _ _ _ _
      (tierGet_eq_none_of_not_has _ _ (by simpa using h1))]
    rw [retrieveLoop_cons_some _ _ _ _ _ _ hget]
  · cases hloc
    rw [retrieveLoop_cons_none _ _ _ _ _
      (tierGet_eq_none_of_not_has _ _ (by simpa using h1))]
    rw [retrieveLoop_cons_none _ _ _ _ _
      (tierGet_eq_none_of_not_has _ _ (by simpa using h2))]
    rw [retrieveLoop_cons_some _ _ _ _ _ _ hget]
  · cases hloc
    rw [retrieveLoop_cons_none _ _ _ _ _
      (tierGet_eq_none_of_not_has _ _ (by simpa using h1))]
    rw [retrieveLoop_cons_none _ _ _ _ _
      (tierGet_eq_none_of_not_has _ _ (by simpa using h2))]
    rw [retrieveLoop_cons_none _ _ _ _ _
      (tierGet_eq_none_of_not_has _ _ (by simpa using h3))]
    rw [retrieveLoop_cons_some _ _ _ _ _ _ hget]

/-! ### Push and pop analysis -/

/-- The graph node appended for a pushed frame. -/
def nodeOf (f : ScopeFrame) : GraphNode :=
  { id := f.id, type := "scope", data := f }

/-- The graph edges appended for a pushed frame (one iff it has a parent). -/
def edgesOf (f : ScopeFrame) : List GraphEdge :=
  match f.parent with
  | some p => [{ «from» := p.id, «to» := f.id, type := "parent-child" }]
  | none => []

theorem updateContextGraph_nodes (s : HyperMindService) (f : ScopeFrame) :
    (updateContextGraph s f).contextGraph.nodes =
      s.contextGraph.nodes ++ [nodeOf f] := by
  unfold updateContextGraph nodeOf
  split <;> rfl

theorem updateContextGraph_edges (s : HyperMindService) (f : ScopeFrame) :
    (updateContextGraph s f).contextGraph.edges =
      s.contextGraph.edges ++ edgesOf f := by
  unfold updateContextGraph edgesOf
  split
  · rfl
  · simp

theorem pushScope_frame (s : HyperMindService) (c : Value) (i : String) (now : Nat) :
    (pushScope s c i now).1 = ScopeFrame.mk i c (.vobj []) now s.scopeStack.getLast? := rfl

theorem pushScope_stack (s : HyperMindService) (c : Value) (i : String) (now : Nat) :
    (pushScope s c i now).2.scopeStack = s.scopeStack ++ [(pushScope s c i now).1] := by
  unfold pushScope
  rw [updateContextGraph_scopeStack]

theorem pushScope_memoryStore (s : HyperMindService) (c : Value) (i : String) (now : Nat) :
    (pushScope s c i now).2.memoryStore = s.memoryStore := by
  unfold pushScope
  rw [updateContextGraph_memoryStore]

theorem pushScope_nodes (s : HyperMindService) (c : Value) (i : String) (now : Nat) :
    (pushScope s c i now).2.contextGraph.nodes =
      s.contextGraph.nodes ++ [nodeOf (pushScope s c i now).1] := by
  unfold pushScope
  rw [updateContextGraph_nodes]

theorem pushScope_edges (s : HyperMindService) (c : Value) (i : String) (now : Nat) :
    (pushScope s c i now).2.contextGraph.edges =
      s.contextGraph.edges ++ edgesOf (pushScope s c i now).1 := by
  unfold pushScope
  rw [updateContextGraph_edges]

theorem pushMany_stack (s : HyperMindService) (args : List PushArgs) :
    (pushMany s args).1.scopeStack = s.scopeStack ++ (pushMany s args).2 := by
  induction args generalizing s with
  | nil => simp [pushMany]
  | cons a rest ih =>
    show (pushMany (pushScope s a.config a.id a.now).2 rest).1.scopeStack =
      s.scopeStack ++ ((pushScope s a.config a.id a.now).1 ::
        (pushMany (pushScope s a.config a.id a.now).2 rest).2)
    rw [ih, pushScope_stack]
    simp

theorem pushMany_memoryStore (s : HyperMindService) (args : List PushArgs) :
    (pushMany s args).1.memoryStore = s.memoryStore := by
  induction args generalizing s with
  | nil => rfl
  | cons a rest ih =>
    show (pushMany (pushScope s a.config a.id a.now).2 rest).1.memoryStore = s.memoryStore
    rw [ih, pushScope_memoryStore]

theorem pushMany_nodes (s : HyperMindService) (args : List PushArgs) :
    (pushMany s args).1.contextGraph.nodes =
      s.contextGraph.nodes ++ (pushMany s args).2.map nodeOf := by
  induction args generalizing s with
  | nil => simp [pushMany]
  | cons a rest ih =>
    show (pushMany (pushScope s a.config a.id a.now).2 rest).1.contextGraph.nodes =
      s.contextGraph.nodes ++ ((pushScope s a.config a.id a.now).1 ::
        (pushMany (pushScope s a.config a.id a.now).2 rest).2).map nodeOf
    rw [ih, pushScope_nodes]
    simp

theorem pushMany_edges (s : HyperMindService) (args : List PushArgs) :
    (pushMany s args).1.contextGraph.edges =
      s.contextGraph.edges ++ ((pushMany s args).2.map edgesOf).flatten := by
  induction args generalizing s with
  | nil => simp [pushMany]
  | cons a rest ih =>
    show (pushMany (pushScope s a.config a.id a.now).2 rest).1.contextGraph.edges =
      s.contextGraph.edges ++ (((pushScope s a.config a.id a.now).1 ::
        (pushMany (pushScope s a.config a.id a.now).2 rest).2).map edgesOf).flatten
    rw [ih, pushScope_edges]
    simp

theorem pushMany_parents (s : HyperMindService) (args : List PushArgs) :
    ∀ i f, (pushMany s args).2.get? i = some f →
      f.parent = (s.scopeStack ++ (pushMany s args).2.take i).getLast? := by
  induction args generalizing s with
  | nil => intro i f hf; cases hf
  | cons a rest ih =>
    intro i f hf
    match i with
    | 0 =>
      have : (pushMany s (a :: rest)).2.get? 0 = some (pushScope s a.config a.id a.now).1 := rfl
      rw [this] at hf
      cases hf
      rw [pushScope_frame]
      simp [ScopeFrame.parent]
    | Nat.succ j =>
      have hg : (pushMany s (a :: rest)).2.get? (j + 1) =
          (pushMany (pushScope s a.config a.id a.now).2 rest).2.get? j := rfl
      rw [hg] at hf
      have := ih (pushScope s a.config a.id a.now).2 j f hf
      rw [pushScope_stack] at this
      rw [this]
      have ht : (pushMany s (a :: rest)).2.take (j + 1) =
          (pushScope s a.config a.id a.now).1 ::
            (pushMany (pushScope s a.config a.id a.now).2 rest).2.take j := rfl
      rw [ht]
      congr 1
      simp

theorem popScope_empty (s : HyperMindService) (now : Nat) (h : s.scopeStack = []) :
    popScope s now = (.error "Cannot pop from empty scope stack", s) := by
  unfold popScope
  rw [h]
  rfl

theorem popScope_concat (s : HyperMindService) (now : Nat) (base : List ScopeFrame)
    (f : ScopeFrame) (h : s.scopeStack = base ++ [f]) :
    popScope s now = (.ok f, archiveScope { s with scopeStack := base } f now) := by
  unfold popScope
  rw [h]
  simp only [List.getLast?_concat, List.dropLast_concat]

theorem archiveScope_scopeStack (s : HyperMindService) (f : ScopeFrame) (now : Nat) :
    (archiveScope s f now).scopeStack = s.scopeStack :=
  storeContext_scopeStack _ _ _ _ _

theorem archiveScope_contextGraph (s : HyperMindService) (f : ScopeFrame) (now : Nat) :
    (archiveScope s f now).contextGraph = s.contextGraph :=
  storeContext_contextGraph _ _ _ _ _

theorem popMany_concat (frames : List ScopeFrame) :
    ∀ (nows : List Nat) (s : HyperMindService) (base : List ScopeFrame),
      s.scopeStack = base ++ frames → nows.length = frames.length →
      ∃ s', popMany s nows = some (frames.reverse, s') ∧ s'.scopeStack = base ∧
        s'.contextGraph = s.contextGraph := by
  induction frames using List.reverseRecOn with
  | nil =>
    intro nows s base hs hlen
    have : nows = [] := List.length_eq_zero.mp (by simpa using hlen)
    subst this
    exact ⟨s, rfl, by simpa using hs, rfl⟩
  | append_singleton init last ih =>
    intro nows s base hs hlen
    match nows with
    | [] => exact absurd hlen.symm (by simp)
    | n :: rest =>
      have hx : s.scopeStack = (base ++ init) ++ [last] := by rw [hs]; simp
      have hpop := popScope_concat s n (base ++ init) last hx
      have hlen2 : rest.length = init.length := by
        have := hlen
        simp at this
        omega
      have hstack2 : (archiveScope { s with scopeStack := base ++ init } last n).scopeStack
          = base ++ init := by rw [archiveScope_scopeStack]
      obtain ⟨s', hps, hstk, hgph⟩ :=
        ih rest (archiveScope { s with scopeStack := base ++ init } last n) base hstack2 hlen2
      refine ⟨s', ?_, hstk, ?_⟩
      · show (match popScope s n with
          | (.error _, _) => none
          | (.ok f, s1) => (popMany s1 rest).map (fun r => (f :: r.1, r.2))) =
            some ((init ++ [last]).reverse, s')
        rw [hpop]
        simp only [hps, Option.map_some]
        simp
      · rw [hgph, archiveScope_contextGraph]

/-! ### Tier-count machinery -/

/-- Number of tiers in which a key currently resolves. -/
def tiersWith (m : MemoryStore) (k : String) : Nat :=
  (if tierHas (m.getTier .hot) k then 1 else 0) + (if tierHas (m.getTier .warm) k then 1 else 0) + (if tierHas (m.getTier .cold) k then 1 else 0) + (if tierHas (m.getTier .archived) k then 1 else 0)

theorem tiersWith_congr (m1 m2 : MemoryStore) (k : String)
    (h : ∀ u : TierName, tierHas (m2.getTier u) k = tierHas (m1.getTier u) k) :
    tiersWith m2 k = tiersWith m1 k := by
  unfold tiersWith
  rw [h .hot, h .warm, h .cold, h .archived]

theorem tiersWith_le_of_imp (m1 m2 : MemoryStore) (k : String)
    (h : ∀ u : TierName, tierHas (m2.getTier u) k = true → tierHas (m1.getTier u) k = true) :
    tiersWith m2 k ≤ tiersWith m1 k := by
  have key : ∀ (x y : Bool), (x = true → y = true) →
      (if x then 1 else 0) ≤ (if y then 1 else 0) := by
    intro x y hxy
    cases x
    · simp
    · simp [hxy rfl]
  unfold tiersWith
  exact Nat.add_le_add (Nat.add_le_add (Nat.add_le_add (key _ _ (h .hot))
    (key _ _ (h .warm))) (key _ _ (h .cold))) (key _ _ (h .archived))

theorem tierHas_tierDelAll_imp (t : Tier) (ks : List String) (k : String)
    (h : tierHas (tierDelAll t ks) k = true) : tierHas t k = true := by
  unfold tierHas at *
  rw [tierGet_tierDelAll] at h
  by_cases hk : k ∈ ks
  · rw [if_pos hk] at h
    simp at h
  · rw [if_neg hk] at h
    exact h

theorem dedup_tiersWith_le (s : HyperMindService) (k : String) :
    tiersWith (deduplicateContexts s).memoryStore k ≤ tiersWith s.memoryStore k := by
  apply tiersWith_le_of_imp
  intro u hu
  cases u with
  | hot =>
    rw [show (deduplicateContexts s).memoryStore.getTier .hot =
      (dedupTier s.memoryStore.hot []).1 from rfl, dedupTier_fst] at hu
    exact tierHas_tierDelAll_imp _ _ _ hu
  | warm =>
    rw [show (deduplicateContexts s).memoryStore.getTier .warm =
      (dedupTier s.memoryStore.warm (dedupTier s.memoryStore.hot []).2).1 from rfl,
      dedupTier_fst] at hu
    exact tierHas_tierDelAll_imp _ _ _ hu
  | cold =>
    rw [show (deduplicateContexts s).memoryStore.getTier .cold =
      (dedupTier s.memoryStore.cold
        (dedupTier s.memoryStore.warm (dedupTier s.memoryStore.hot []).2).2).1 from rfl,
      dedupTier_fst] at hu
    exact tierHas_tierDelAll_imp _ _ _ hu
  | archived => exact hu

theorem tierHas_tierSet_self (t : Tier) (k : String) (e : ContextEntry) :
    tierHas (tierSet t k e) k = true := by
  unfold tierHas
  rw [tierGet_tierSet_self]
  rfl

theorem tierHas_tierSet_mono (t : Tier) (k k' : String) (e : ContextEntry)
    (h : tierHas t k = true) : tierHas (tierSet t k' e) k = true := by
  by_cases hk : k = k'
  · subst hk
    exact tierHas_tierSet_self t k e
  · unfold tierHas at *
    rw [tierGet_tierSet_ne _ _ _ _ hk]
    exact h

theorem demoteFold_warm_mono (now : Nat) (l : List (String × ContextEntry))
    (m : MemoryStore) (k : String) (h : tierHas m.warm k = true) :
    tierHas (demoteFold now l m).warm k = true := by
  induction l generalizing m with
  | nil => exact h
  | cons hd tl ih =>
    show tierHas (demoteFold now tl (demoteStep now m hd)).warm k = true
    apply ih
    unfold demoteStep
    split
    · show tierHas (tierSet m.warm hd.1 hd.2) k = true
      exact tierHas_tierSet_mono _ _ _ _ h
    · exact h

theorem demoteFold_warm_has_of_del (now : Nat) (l : List (String × ContextEntry))
    (m : MemoryStore) (k : String)
    (hdel : ∃ p ∈ l, p.1 = k ∧ shouldDemote now p.2 = true) :
    tierHas (demoteFold now l m).warm k = true := by
  induction l generalizing m with
  | nil => rcases hdel with ⟨p, hp, _⟩; cases hp
  | cons hd tl ih =>
    show tierHas (demoteFold now tl (demoteStep now m hd)).warm k = true
    rcases hdel with ⟨p, hp, hpk, hpd⟩
    rcases List.mem_cons.mp hp with hp | hp
    · subst hp
      apply demoteFold_warm_mono
      unfold demoteStep
      split
      · show tierHas (tierSet m.warm p.1 p.2) k = true
        rw [hpk]
        exact tierHas_tierSet_self _ _ _
      · rename_i hc
        exact absurd hpd hc
    · exact ih _ ⟨p, hp, hpk, hpd⟩

theorem demote_tiersWith_le_one (now : Nat) (m : MemoryStore) (k : String)
    (h : tiersWith m k ≤ 1) : tiersWith (demoteFold now m.hot m) k ≤ 1 := by
  have hcold : (demoteFold now m.hot m).cold = m.cold := demoteFold_cold _ _ _
  have harch : (demoteFold now m.hot m).archived = m.archived := demoteFold_archived _ _ _
  unfold tiersWith at h ⊢
  simp only [MemoryStore.getTier] at h ⊢
  simp only [hcold, harch]
  by_cases hdel : ∃ p ∈ m.hot, p.1 = k ∧ shouldDemote now p.2 = true
  · have hhot : tierHas m.hot k = true := by
      rcases hdel with ⟨p, hp, hpk, _⟩
      rw [← hpk]
      exact tierHas_of_mem _ _ hp
    have h1 : tierHas (demoteFold now m.hot m).hot k = false := by
      unfold tierHas
      rw [demoteFold_hot_del now m.hot m k hdel]
      rfl
    have h2 : tierHas (demoteFold now m.hot m).warm k = true :=
      demoteFold_warm_has_of_del now m.hot m k hdel
    simp only [h1, h2, hhot] at h ⊢
    simp at h ⊢
    split_ifs at h ⊢ <;> omega
  · have hkeep : ∀ p ∈ m.hot, p.1 = k → shouldDemote now p.2 = false := by
      intro p hp hpk
      by_cases hb : shouldDemote now p.2 = true
      · exact absurd ⟨p, hp, hpk, hb⟩ hdel
      · simpa using hb
    have h1 : tierHas (demoteFold now m.hot m).hot k = tierHas m.hot k := by
      unfold tierHas
      rw [demoteFold_hot_keep now m.hot m k hkeep]
    have h2 : tierHas (demoteFold now m.hot m).warm k = tierHas m.warm k := by
      unfold tierHas
      rw [demoteFold_warm_keep now m.hot m k hkeep]
    simp only [h1, h2]
    exact h

theorem optimize_tiersWith_le_one (s : HyperMindService) (now : Nat) (k : String)
    (h : tiersWith s.memoryStore k ≤ 1) :
    tiersWith (optimizeMemory s now).memoryStore k ≤ 1 := by
  unfold optimizeMemory
  exact le_trans
    (dedup_tiersWith_le { s with memoryStore := demoteFold now s.memoryStore.hot s.memoryStore } k)
    (demote_tiersWith_le_one now s.memoryStore k h)

theorem tiersWith_eq_zero_all_false (m : MemoryStore) (k : String)
    (h0 : tiersWith m k = 0) : ∀ u : TierName, tierHas (m.getTier u) k = false := by
  intro u
  by_contra hc
  have hu : tierHas (m.getTier u) k = true := by simpa using hc
  unfold tiersWith at h0
  cases u <;> rw [hu] at h0 <;> simp at h0

theorem tiersWith_setTier_set (m : MemoryStore) (T : TierName) (k : String)
    (e : ContextEntry) (h0 : tiersWith m k = 0) :
    tiersWith (m.setTier T (tierSet (m.getTier T) k e)) k = 1 := by
  have hall := tiersWith_eq_zero_all_false m k h0
  have hT : tierHas ((m.setTier T (tierSet (m.getTier T) k e)).getTier T) k = true := by
    rw [getTier_setTier_self]
    exact tierHas_tierSet_self _ _ _
  have hother : ∀ u, u ≠ T →
      tierHas ((m.setTier T (tierSet (m.getTier T) k e)).getTier u) k = false := by
    intro u hu
    rw [getTier_setTier_ne _ _ _ _ hu]
    exact hall u
  unfold tiersWith
  cases T with
  | hot =>
    rw [hT, hother .warm (by simp), hother .cold (by simp), hother .archived (by simp)]
    simp
  | warm =>
    rw [hT, hother .hot (by simp), hother .cold (by simp), hother .archived (by simp)]
    simp
  | cold =>
    rw [hT, hother .hot (by simp), hother .warm (by simp), hother .archived (by simp)]
    simp
  | archived =>
    rw [hT, hother .hot (by simp), hother .warm (by simp), hother .cold (by simp)]
    simp

theorem promoteMove_get_preserve (m : MemoryStore) (k' : String) (t : TierName)
    (e : ContextEntry) (u : TierName) (k : String) (hkk : k ≠ k')
    (hne : nextTier t ≠ t) :
    tierGet ((promoteMove m k' t e).getTier u) k = tierGet (m.getTier u) k := by
  by_cases hut : u = t
  · subst hut
    unfold promoteMove
    rw [getTier_setTier_self, tierGet_tierDel_ne _ _ _ hkk,
      getTier_setTier_ne _ _ _ _ (Ne.symm hne)]
  · by_cases hun : u = nextTier t
    · subst hun
      unfold promoteMove
      rw [getTier_setTier_ne _ _ _ _ hne, getTier_setTier_self,
        tierGet_tierSet_ne _ _ _ _ hkk]
    · rw [promoteMove_get_other _ _ _ _ _ hut hun]

theorem bumpState_get_self (s : HyperMindService) (t : TierName) (k' : String)
    (e : ContextEntry) (now : Nat) :
    tierGet ((bumpState s t k' e now).memoryStore.getTier t) k' = some (bumpEntry e now) := by
  show tierGet ((s.memoryStore.setTier t (tierSet (s.memoryStore.getTier t) k' (bumpEntry e now))).getTier t) k' = some (bumpEntry e now)
  rw [getTier_setTier_self]
  exact tierGet_tierSet_self _ _ _

theorem bumpState_tiersWith (s : HyperMindService) (t : TierName) (k' : String)
    (e : ContextEntry) (now : Nat) (k : String)
    (hget : tierGet (s.memoryStore.getTier t) k' = some e) :
    tiersWith (bumpState s t k' e now).memoryStore k = tiersWith s.memoryStore k := by
  apply tiersWith_congr
  intro u
  by_cases hut : u = t
  · subst hut
    rw [show (bumpState s u k' e now).memoryStore.getTier u =
      tierSet (s.memoryStore.getTier u) k' (bumpEntry e now) from getTier_setTier_self _ _ _]
    by_cases hk : k = k'
    · subst hk
      rw [tierHas_tierSet_self]
      unfold tierHas
      rw [hget]
      rfl
    · unfold tierHas
      rw [tierGet_tierSet_ne _ _ _ _ hk]
  · rw [show (bumpState s t k' e now).memoryStore.getTier u =
      s.memoryStore.getTier u from getTier_setTier_ne _ _ _ _ hut]

theorem tiersWith_promoteMove_eq_one (m : MemoryStore) (k : String) (t : TierName)
    (e : ContextEntry) (ht : t ≠ .hot)
    (hothers : ∀ u, u ≠ t → tierHas (m.getTier u) k = false) :
    tiersWith (promoteMove m k t e) k = 1 := by
  have hne := nextTier_ne t ht
  have g1 : tierHas ((promoteMove m k t e).getTier t) k = false := by
    unfold tierHas
    rw [promoteMove_get_self]
    rfl
  have g2 : tierHas ((promoteMove m k t e).getTier (nextTier t)) k = true := by
    unfold tierHas
    rw [promoteMove_get_next _ _ _ _ hne]
    rfl
  have g3 : ∀ u, u ≠ t → u ≠ nextTier t →
      tierHas ((promoteMove m k t e).getTier u) k = false := by
    intro u h1 h2
    unfold tierHas
    rw [promoteMove_get_other _ _ _ _ _ h1 h2]
    exact hothers u h1
  unfold tiersWith
  cases t with
  | hot => exact absurd rfl ht
  | warm =>
    rw [show tierHas ((promoteMove m k .warm e).getTier .hot) k = true from g2, g1,
      g3 .cold (by decide) (by decide), g3 .archived (by decide) (by decide)]
    simp
  | cold =>
    rw [show tierHas ((promoteMove m k .cold e).getTier .warm) k = true from g2, g1,
      g3 .hot (by decide) (by decide), g3 .archived (by decide) (by decide)]
    simp
  | archived =>
    rw [show tierHas ((promoteMove m k .archived e).getTier .cold) k = true from g2, g1,
      g3 .hot (by decide) (by decide), g3 .warm (by decide) (by decide)]
    simp

theorem retrieve_tiersWith_le_one (s : HyperMindService) (now : Nat) (k' k : String)
    (h : tiersWith s.memoryStore k ≤ 1) :
    tiersWith ((retrieveContext s now k').2).memoryStore k ≤ 1 := by
  cases hloc : locate s k' with
  | none =>
    rw [retrieve_miss s now k' hloc]
    exact h
  | some t =>
    obtain ⟨e, hget⟩ := tierGet_isSome_of_has _ _ (locate_some_has s k' t hloc)
    rw [retrieve_hit s now k' t e hloc hget]
    have hget1 := bumpState_get_self s t k' e now
    have hb := bumpState_tiersWith s t k' e now k hget
    by_cases hcnt : (bumpEntry e now).metadata.accessCount > 10
    · by_cases hthot : t = .hot
      · subst hthot
        show tiersWith (promoteIfNeeded (bumpState s .hot k' e now) k' .hot).memoryStore k ≤ 1
        rw [promoteIfNeeded_noop_hot _ _ _ hget1, hb]
        exact h
      · show tiersWith (promoteIfNeeded (bumpState s t k' e now) k' t).memoryStore k ≤ 1
        rw [promoteIfNeeded_eq_move _ _ _ _ hget1 hcnt hthot]
        show tiersWith (promoteMove (bumpState s t k' e now).memoryStore k' t (bumpEntry e now)) k ≤ 1
        by_cases hk : k = k'
        · subst hk
          have hs1 : tiersWith (bumpState s t k e now).memoryStore k ≤ 1 := by
            rw [hb]
            exact h
          have hht : tierHas ((bumpState s t k e now).memoryStore.getTier t) k = true := by
            unfold tierHas
            rw [hget1]
            rfl
          have hothers : ∀ u, u ≠ t →
              tierHas ((bumpState s t k e now).memoryStore.getTier u) k = false := by
            intro u hu
            by_contra hc
            have hu2 : tierHas ((bumpState s t k e now).memoryStore.getTier u) k = true := by
              simpa using hc
            unfold tiersWith at hs1
            cases t <;> cases u <;> first
              | exact absurd rfl hu
              | (simp only [hht, hu2] at hs1; split_ifs at hs1 <;> omega)
          rw [tiersWith_promoteMove_eq_one _ _ _ _ hthot hothers]
        · have heq : tiersWith (promoteMove (bumpState s t k' e now).memoryStore k' t (bumpEntry e now)) k
              = tiersWith (bumpState s t k' e now).memoryStore k := by
            apply tiersWith_congr
            intro u
            unfold tierHas
            rw [promoteMove_get_preserve _ _ _ _ _ _ hk (nextTier_ne t hthot)]
          rw [heq, hb]
          exact h
    · show tiersWith (promoteIfNeeded (bumpState s t k' e now) k' t).memoryStore k ≤ 1
      rw [promoteIfNeeded_noop_low _ _ _ _ hget1 hcnt, hb]
      exact h

/-- The initial service state (the tracked initializers of the source
class: all four tiers empty, empty stack, empty graph). -/
def initialState : HyperMindService :=
  { memoryStore := { hot := [], warm := [], cold := [], archived := [] }, scopeStack := [], contextGraph := { nodes := [], edges := [] } }

/-! ### Further helpers for the claims -/

theorem pushMany_length (s : HyperMindService) (args : List PushArgs) :
    (pushMany s args).2.length = args.length := by
  induction args generalizing s with
  | nil => rfl
  | cons a rest ih =>
    show ((pushScope s a.config a.id a.now).1 ::
      (pushMany (pushScope s a.config a.id a.now).2 rest).2).length = rest.length + 1
    rw [List.length_cons, ih]

theorem popScope_contextGraph (s : HyperMindService) (now : Nat) :
    (popScope s now).2.contextGraph = s.contextGraph := by
  unfold popScope
  split
  · rfl
  · exact archiveScope_contextGraph _ _ _

theorem tierGet_tierDelAll_none (t : Tier) (ks : List String) (k : String)
    (h : tierGet t k = none) : tierGet (tierDelAll t ks) k = none := by
  rw [tierGet_tierDelAll]
  split_ifs
  · rfl
  · exact h

theorem optimizeMemory_keyfree (s : HyperMindService) (now : Nat) (k : String)
    (hh : tierHas s.memoryStore.hot k = false)
    (hw : tierHas s.memoryStore.warm k = false)
    (hc : tierHas s.memoryStore.cold k = false) :
    tierGet (optimizeMemory s now).memoryStore.hot k = none
    ∧ tierGet (optimizeMemory s now).memoryStore.warm k = none
    ∧ tierGet (optimizeMemory s now).memoryStore.cold k = none := by
  have hhn := tierGet_eq_none_of_not_has _ _ hh
  have hwn := tierGet_eq_none_of_not_has _ _ hw
  have hcn := tierGet_eq_none_of_not_has _ _ hc
  have hkeyfree : ∀ p ∈ s.memoryStore.hot, p.1 ≠ k :=
    not_mem_key_of_not_tierHas _ _ hh
  have hdh : tierGet (demoteFold now s.memoryStore.hot s.memoryStore).hot k = none :=
    demoteFold_hot_none now _ _ _ hhn
  have hdw : tierGet (demoteFold now s.memoryStore.hot s.memoryStore).warm k = none := by
    rw [demoteFold_warm_keyfree now _ _ _ hkeyfree]
    exact hwn
  have hdc : tierGet (demoteFold now s.memoryStore.hot s.memoryStore).cold k = none := by
    rw [demoteFold_cold]
    exact hcn
  refine ⟨?_, ?_, ?_⟩
  · show tierGet (dedupTier (demoteFold now s.memoryStore.hot s.memoryStore).hot []).1 k = none
    rw [dedupTier_fst]
    exact tierGet_tierDelAll_none _ _ _ hdh
  · show tierGet (dedupTier (demoteFold now s.memoryStore.hot s.memoryStore).warm
      (dedupTier (demoteFold now s.memoryStore.hot s.memoryStore).hot []).2).1 k = none
    rw [dedupTier_fst]
    exact tierGet_tierDelAll_none _ _ _ hdw
  · show tierGet (dedupTier (demoteFold now s.memoryStore.hot s.memoryStore).cold
      (dedupTier (demoteFold now s.memoryStore.hot s.memoryStore).warm
        (dedupTier (demoteFold now s.memoryStore.hot s.memoryStore).hot []).2).2).1 k = none
    rw [dedupTier_fst]
    exact tierGet_tierDelAll_none _ _ _ hdc

theorem tierIndex_nextTier (t : TierName) (ht : t ≠ .hot) :
    tierIndex (nextTier t) = tierIndex t + 1 := by
  cases t <;> first | exact absurd rfl ht | rfl

theorem locate_inv_earlier (s : HyperMindService) (k : String) (t : TierName)
    (h : locate s k = some t) :
    ∀ u : TierName, tierIndex u > tierIndex t →
      tierHas (s.memoryStore.getTier u) k = false := by
  rw [locate_eq] at h
  split_ifs at h with h1 h2 h3 h4 <;> cases h <;> intro u hu <;> cases u
  all_goals first
    | (exfalso; revert hu; decide)
    | (simpa using h1)
    | (simpa using h2)
    | (simpa using h3)

theorem locate_of_indicators (s : HyperMindService) (k : String) (t : TierName)
    (hh : tierHas (s.memoryStore.getTier t) k = true)
    (he : ∀ u : TierName, tierIndex u > tierIndex t →
      tierHas (s.memoryStore.getTier u) k = false) :
    locate s k = some t := by
  rw [locate_eq]
  cases t with
  | hot =>
    rw [show tierHas s.memoryStore.hot k = true from hh]
    simp
  | warm =>
    rw [show tierHas s.memoryStore.hot k = false from he .hot (by decide),
      show tierHas s.memoryStore.warm k = true from hh]
    simp
  | cold =>
    rw [show tierHas s.memoryStore.hot k = false from he .hot (by decide),
      show tierHas s.memoryStore.warm k = false from he .warm (by decide),
      show tierHas s.memoryStore.cold k = true from hh]
    simp
  | archived =>
    rw [show tierHas s.memoryStore.hot k = false from he .hot (by decide),
      show tierHas s.memoryStore.warm k = false from he .warm (by decide),
      show tierHas s.memoryStore.cold k = false from he .cold (by decide),
      show tierHas s.memoryStore.archived k = true from hh]
    simp

theorem bumpState_getTier_ne (s : HyperMindService) (t : TierName) (k' : String)
    (e : ContextEntry) (now : Nat) (u : TierName) (hu : u ≠ t) :
    (bumpState s t k' e now).memoryStore.getTier u = s.memoryStore.getTier u := by
  show (s.memoryStore.setTier t (tierSet (s.memoryStore.getTier t) k' (bumpEntry e now))).getTier u = s.memoryStore.getTier u
  exact getTier_setTier_ne _ _ _ _ hu

theorem retrieve_hit_after (s : HyperMindService) (now : Nat) (k : String)
    (t : TierName) (e : ContextEntry) (hloc : locate s k = some t)
    (hget : tierGet (s.memoryStore.getTier t) k = some e) :
    ∃ t', locate (retrieveContext s now k).2 k = some t'
      ∧ tierGet ((retrieveContext s now k).2.memoryStore.getTier t') k =
          some (bumpEntry e now)
      ∧ tierIndex t ≤ tierIndex t' ∧ tierIndex t' ≤ tierIndex t + 1 := by
  have hearly := locate_inv_earlier s k t hloc
  rw [retrieve_hit s now k t e hloc hget]
  have hget1 := bumpState_get_self s t k e now
  by_cases hcnt : (bumpEntry e now).metadata.accessCount > 10
  · by_cases hthot : t = .hot
    · subst hthot
      rw [promoteIfNeeded_noop_hot _ _ _ hget1]
      refine ⟨.hot, ?_, ?_, by decide, by decide⟩
      · show locate (bumpState s .hot k e now) k = some .hot
        apply locate_of_indicators
        · unfold tierHas
          rw [hget1]
          rfl
        · intro u hu
          exfalso
          revert hu
          cases u <;> decide
      · exact hget1
    · rw [promoteIfNeeded_eq_move _ _ _ _ hget1 hcnt hthot]
      have hne := nextTier_ne t hthot
      have hidx := tierIndex_nextTier t hthot
      refine ⟨nextTier t, ?_, ?_, by omega, by omega⟩
      · apply locate_of_indicators
        · show tierHas ((promoteMove (bumpState s t k e now).memoryStore k t (bumpEntry e now)).getTier (nextTier t)) k = true
          unfold tierHas
          rw [promoteMove_get_next _ _ _ _ hne]
          rfl
        · intro u hu
          have hut : u ≠ t := by
            intro hc
            subst hc
            omega
          have hun : u ≠ nextTier t := by
            intro hc
            subst hc
            omega
          show tierHas ((promoteMove (bumpState s t k e now).memoryStore k t (bumpEntry e now)).getTier u) k = false
          unfold tierHas
          rw [promoteMove_get_other _ _ _ _ _ hut hun,
            bumpState_getTier_ne _ _ _ _ _ _ hut,
            tierGet_eq_none_of_not_has _ _ (hearly u (by omega))]
          rfl
      · show tierGet ((promoteMove (bumpState s t k e now).memoryStore k t (bumpEntry e now)).getTier (nextTier t)) k = some (bumpEntry e now)
        exact promoteMove_get_next _ _ _ _ hne
  · rw [promoteIfNeeded_noop_low _ _ _ _ hget1 hcnt]
    refine ⟨t, ?_, hget1, Nat.le_refl _, Nat.le_succ _⟩
    apply locate_of_indicators
    · show tierHas ((bumpState s t k e now).memoryStore.getTier t) k = true
      unfold tierHas
      rw [hget1]
      rfl
    · intro u hu
      show tierHas ((bumpState s t k e now).memoryStore.getTier u) k = false
      rw [bumpState_getTier_ne _ _ _ _ _ _ (by intro hc; subst hc; omega)]
      exact hearly u hu

/-! ## Claims -/

/-- C1 (tier exclusivity): a key freshly stored once resolves in at most one
tier, and this bound is preserved by every retrieval (of any key), by stores
of other keys, and by the maintenance pass; moreover promotion moves the
entry — after a promotion step the key is gone from the source tier and
present in the destination tier (never a copy in both). -/
theorem tier_exclusivity (k : String) :
    (∀ (s : HyperMindService) (now : Nat) (v : Value) (o : StoreOptions),
        tiersWith s.memoryStore k = 0 →
        tiersWith (storeContext s now k v o).memoryStore k ≤ 1)
    ∧ (∀ (s : HyperMindService) (now : Nat) (k' : String),
        tiersWith s.memoryStore k ≤ 1 →
        tiersWith ((retrieveContext s now k').2).memoryStore k ≤ 1)
    ∧ (∀ (s : HyperMindService) (now : Nat) (k' : String) (v : Value) (o : StoreOptions),
        k' ≠ k → tiersWith s.memoryStore k ≤ 1 →
        tiersWith (storeContext s now k' v o).memoryStore k ≤ 1)
    ∧ (∀ (s : HyperMindService) (now : Nat),
        tiersWith s.memoryStore k ≤ 1 →
        tiersWith (optimizeMemory s now).memoryStore k ≤ 1)
    ∧ (∀ (s : HyperMindService) (t : TierName) (e : ContextEntry),
        tierGet (s.memoryStore.getTier t) k = some e →
        e.metadata.accessCount > 10 → t ≠ .hot →
        tierGet ((promoteIfNeeded s k t).memoryStore.getTier t) k = none
        ∧ tierGet ((promoteIfNeeded s k t).memoryStore.getTier (nextTier t)) k = some e) := by
  refine ⟨?_, ?_, ?_, ?_, ?_⟩
  · intro s now v o h0
    unfold storeContext
    apply optimize_tiersWith_le_one
    show tiersWith (s.memoryStore.setTier (o.tier.getD .hot) (tierSet (s.memoryStore.getTier (o.tier.getD .hot)) k (mkEntry now k v o))) k ≤ 1
    rw [tiersWith_setTier_set _ _ _ _ h0]
  · intro s now k' h
    exact retrieve_tiersWith_le_one s now k' k h
  · intro s now k' v o hk h
    unfold storeContext
    apply optimize_tiersWith_le_one
    show tiersWith (s.memoryStore.setTier (o.tier.getD .hot) (tierSet (s.memoryStore.getTier (o.tier.getD .hot)) k' (mkEntry now k' v o))) k ≤ 1
    have heq : tiersWith (s.memoryStore.setTier (o.tier.getD .hot) (tierSet (s.memoryStore.getTier (o.tier.getD .hot)) k' (mkEntry now k' v o))) k = tiersWith s.memoryStore k := by
      apply tiersWith_congr
      intro u
      by_cases hut : u = o.tier.getD .hot
      · subst hut
        rw [getTier_setTier_self]
        unfold tierHas
        rw [tierGet_tierSet_ne _ _ _ _ (Ne.symm hk)]
      · rw [getTier_setTier_ne _ _ _ _ hut]
    rw [heq]
    exact h
  · intro s now h
    exact optimize_tiersWith_le_one s now k h
  · intro s t e hget hcnt ht
    rw [promoteIfNeeded_eq_move s k t e hget hcnt ht]
    constructor
    · show tierGet ((promoteMove s.memoryStore k t e).getTier t) k = none
      exact promoteMove_get_self _ _ _ _
    · show tierGet ((promoteMove s.memoryStore k t e).getTier (nextTier t)) k = some e
      exact promoteMove_get_next _ _ _ _ (nextTier_ne t ht)

/-- Witness for C1 at a concrete input: the empty state has the key in no
tier, and after a fresh store the key resolves in at most one tier. -/
theorem tier_exclusivity_witness :
    tiersWith initialState.memoryStore "k" = 0
    ∧ tiersWith (storeContext initialState 5 "k" (.vstr "v") {}).memoryStore "k" ≤ 1 :=
  ⟨by decide, (tier_exclusivity "k").1 initialState 5 (.vstr "v") {} (by decide)⟩

/-- C8: `popScope` raises the empty-stack error if and only if the stack is
empty, and in the error case the returned state is the input state unchanged
(no mutation of stack, tiers, or graph). -/
theorem pop_empty_error (s : HyperMindService) (now : Nat) :
    (s.scopeStack = [] →
      popScope s now = (.error "Cannot pop from empty scope stack", s))
    ∧ (s.scopeStack ≠ [] → ∃ f, (popScope s now).1 = .ok f) := by
  constructor
  · intro h
    exact popScope_empty s now h
  · intro h
    refine ⟨s.scopeStack.getLast h, ?_⟩
    rw [popScope_concat s now s.scopeStack.dropLast (s.scopeStack.getLast h)
      (List.dropLast_append_getLast h).symm]

/-- Witness for C8 at a concrete input: popping the initial (empty) state
errors and leaves the state unchanged; popping after one push succeeds. -/
theorem pop_empty_error_witness :
    popScope initialState 0 = (.error "Cannot pop from empty scope stack", initialState)
    ∧ (∃ f, (popScope (pushScope initialState (.vstr "c") "id1" 1).2 2).1 = .ok f) :=
  ⟨(pop_empty_error initialState 0).1 rfl,
   (pop_empty_error (pushScope initialState (.vstr "c") "id1" 1).2 2).2
     (by rw [pushScope_stack]; simp)⟩

/-- C2 (LIFO integrity and immutable parent linkage): after any sequence of
pushes, the stack is the original stack plus the new frames in push order;
each pushed frame carries, fixed at creation, the frame that was on top
immediately before its push as parent (`none` on an empty stack); and popping
as many times as there were pushes returns exactly the pushed frames in
reverse push order, restoring the original stack. -/
theorem lifo_integrity (s0 : HyperMindService) (args : List PushArgs) :
    (pushMany s0 args).1.scopeStack = s0.scopeStack ++ (pushMany s0 args).2
    ∧ (pushMany s0 args).2.length = args.length
    ∧ (∀ i f, (pushMany s0 args).2.get? i = some f →
        f.parent = (s0.scopeStack ++ (pushMany s0 args).2.take i).getLast?)
    ∧ (∀ nows : List Nat, nows.length = args.length →
        (popMany (pushMany s0 args).1 nows).map Prod.fst =
          some (pushMany s0 args).2.reverse
        ∧ (popMany (pushMany s0 args).1 nows).map (fun r => r.2.scopeStack) =
          some s0.scopeStack) := by
  refine ⟨pushMany_stack s0 args, pushMany_length s0 args, pushMany_parents s0 args, ?_⟩
  intro nows hlen
  obtain ⟨s', hpm, hstk, _⟩ := popMany_concat (pushMany s0 args).2 nows
    (pushMany s0 args).1 s0.scopeStack (pushMany_stack s0 args)
    (by rw [hlen, pushMany_length])
  rw [hpm]
  exact ⟨rfl, by simp [hstk]⟩

/-- Witness frame for C2: the first pushed frame of the concrete run. -/
def frameW1 : ScopeFrame := .mk "id1" (.vstr "a") (.vobj []) 1 none

/-- Witness frame for C2: the second pushed frame of the concrete run. -/
def frameW2 : ScopeFrame := .mk "id2" (.vstr "b") (.vobj []) 2 (some frameW1)

/-- Witness for C2 at a concrete input: two pushes onto the empty state, the
second frame's parent is the first frame, and two pops return the frames in
reverse push order. -/
theorem lifo_integrity_witness :
    frameW2.parent = (initialState.scopeStack ++
      (pushMany initialState [⟨.vstr "a", "id1", 1⟩, ⟨.vstr "b", "id2", 2⟩]).2.take 1).getLast?
    ∧ (popMany (pushMany initialState [⟨.vstr "a", "id1", 1⟩, ⟨.vstr "b", "id2", 2⟩]).1
        [3, 4]).map Prod.fst =
      some (pushMany initialState [⟨.vstr "a", "id1", 1⟩, ⟨.vstr "b", "id2", 2⟩]).2.reverse :=
  ⟨(lifo_integrity initialState [⟨.vstr "a", "id1", 1⟩, ⟨.vstr "b", "id2", 2⟩]).2.2.1 1
      frameW2 rfl,
   ((lifo_integrity initialState [⟨.vstr "a", "id1", 1⟩, ⟨.vstr "b", "id2", 2⟩]).2.2.2
      [3, 4] rfl).1⟩

theorem edgesOf_flatten_length (l : List ScopeFrame) :
    ((l.map edgesOf).flatten).length = (l.filter (fun f => f.parent.isSome)).length := by
  induction l with
  | nil => rfl
  | cons f rest ih =>
    simp only [List.map_cons, List.flatten_cons, List.length_append, ih]
    cases hp : f.parent with
    | none => simp [edgesOf, hp, List.filter_cons]
    | some p =>
      simp [edgesOf, hp, List.filter_cons]
      omega

/-- C9 (graph node and edge counts): a sequence of pushes appends exactly one
node per push and one edge per push whose frame has a non-null parent (which
happens exactly when the stack was non-empty at push time); nodes and edges
are only ever appended, and no other operation (store, retrieve, pop) touches
the graph. -/
theorem graph_edge_count (s0 : HyperMindService) (args : List PushArgs) :
    (pushMany s0 args).1.contextGraph.nodes =
      s0.contextGraph.nodes ++ (pushMany s0 args).2.map nodeOf
    ∧ (pushMany s0 args).1.contextGraph.edges =
      s0.contextGraph.edges ++ ((pushMany s0 args).2.map edgesOf).flatten
    ∧ (pushMany s0 args).1.contextGraph.nodes.length =
      s0.contextGraph.nodes.length + args.length
    ∧ (pushMany s0 args).1.contextGraph.edges.length =
      s0.contextGraph.edges.length +
        ((pushMany s0 args).2.filter (fun f => f.parent.isSome)).length
    ∧ (∀ i f, (pushMany s0 args).2.get? i = some f →
        (f.parent.isSome = true ↔ s0.scopeStack ++ (pushMany s0 args).2.take i ≠ []))
    ∧ (∀ (s : HyperMindService) (now : Nat) (k : String) (v : Value) (o : StoreOptions),
        (storeContext s now k v o).contextGraph = s.contextGraph)
    ∧ (∀ (s : HyperMindService) (now : Nat) (k : String),
        (retrieveContext s now k).2.contextGraph = s.contextGraph)
    ∧ (∀ (s : HyperMindService) (now : Nat),
        (popScope s now).2.contextGraph = s.contextGraph) := by
  refine ⟨pushMany_nodes s0 args, pushMany_edges s0 args, ?_, ?_, ?_,
    fun s now k v o => storeContext_contextGraph s now k v o,
    fun s now k => retrieveContext_contextGraph s now k,
    fun s now => popScope_contextGraph s now⟩
  · rw [pushMany_nodes]
    simp [pushMany_length]
  · rw [pushMany_edges, List.length_append, edgesOf_flatten_length]
  · intro i f hf
    rw [pushMany_parents s0 args i f hf]
    exact List.getLast?_isSome

/-- Witness for C9 at a concrete input: two pushes onto the empty state give
two nodes and one edge, and the second frame has a parent exactly because the
stack was non-empty before its push. -/
theorem graph_edge_count_witness :
    (pushMany initialState [⟨.vstr "a", "idA", 1⟩, ⟨.vstr "b", "idB", 2⟩]).1.contextGraph.nodes.length = 2
    ∧ (pushMany initialState [⟨.vstr "a", "idA", 1⟩, ⟨.vstr "b", "idB", 2⟩]).1.contextGraph.edges.length =
        ((pushMany initialState [⟨.vstr "a", "idA", 1⟩, ⟨.vstr "b", "idB", 2⟩]).2.filter
          (fun f => f.parent.isSome)).length := by
  refine ⟨?_, ?_⟩
  · have h := (graph_edge_count initialState [⟨.vstr "a", "idA", 1⟩, ⟨.vstr "b", "idB", 2⟩]).2.2.1
    simpa using h
  · have h := (graph_edge_count initialState [⟨.vstr "a", "idA", 1⟩, ⟨.vstr "b", "idB", 2⟩]).2.2.2.1
    simpa using h

/-- The pre-existing entry for C10: key `"a"`, value `"v"`, stored in hot. -/
def shadowEntry : ContextEntry := mkEntry 0 "a" (.vstr "v") {}

/-- The pre-state for C10: hot tier already holds an entry whose value
serializes identically to the value about to be stored. -/
def shadowState : HyperMindService :=
  { memoryStore := { hot := [("a", shadowEntry)], warm := [], cold := [], archived := [] }, scopeStack := [], contextGraph := { nodes := [], edges := [] } }

/-- C10 (store does not guarantee retrievability): storing `"b"` with a value
whose serialization equals that of the earlier-iterated entry `"a"` lets the
store-triggered maintenance dedup delete the new entry before `storeContext`
returns, so the immediate retrieval of `"b"` yields the not-found sentinel
while `"a"` remains resolvable. -/
theorem store_shadowed_by_dedup :
    (retrieveContext (storeContext shadowState 1 "b" (.vstr "v") {}) 2 "b").1 = none
    ∧ tierGet (storeContext shadowState 1 "b" (.vstr "v") {}).memoryStore.hot "b" = none
    ∧ (retrieveContext (storeContext shadowState 1 "b" (.vstr "v") {}) 2 "a").1 =
        some (.vstr "v") := by
  exact ⟨rfl, rfl, rfl⟩

/-- C4 (promotion step size): when a retrieval finds the key at tier `t` and
the post-increment access count exceeds 10, the entry moves exactly one step
up `archived→cold→warm→hot` — it leaves `t`, appears at `nextTier t` with its
access count retained (incremented once, not reset), and every other tier is
untouched; an entry found in `hot` is not moved at all. -/
theorem promotion_step_size (s : HyperMindService) (now : Nat) (k : String)
    (t : TierName) (e : ContextEntry) (hloc : locate s k = some t)
    (hget : tierGet (s.memoryStore.getTier t) k = some e)
    (hcnt : e.metadata.accessCount + 1 > 10) :
    (bumpEntry e now).metadata.accessCount = e.metadata.accessCount + 1
    ∧ (t ≠ .hot →
        tierGet ((retrieveContext s now k).2.memoryStore.getTier t) k = none
        ∧ tierGet ((retrieveContext s now k).2.memoryStore.getTier (nextTier t)) k =
            some (bumpEntry e now)
        ∧ ∀ u, u ≠ t → u ≠ nextTier t →
            (retrieveContext s now k).2.memoryStore.getTier u = s.memoryStore.getTier u)
    ∧ (t = .hot →
        tierGet ((retrieveContext s now k).2.memoryStore.getTier .hot) k =
            some (bumpEntry e now)
        ∧ ∀ u, u ≠ .hot →
            (retrieveContext s now k).2.memoryStore.getTier u = s.memoryStore.getTier u) := by
  have hget1 := bumpState_get_self s t k e now
  have hcnt' : (bumpEntry e now).metadata.accessCount > 10 := hcnt
  rw [retrieve_hit s now k t e hloc hget]
  refine ⟨rfl, ?_, ?_⟩
  · intro ht
    rw [promoteIfNeeded_eq_move _ _ _ _ hget1 hcnt' ht]
    have hne := nextTier_ne t ht
    refine ⟨?_, ?_, ?_⟩
    · show tierGet ((promoteMove (bumpState s t k e now).memoryStore k t (bumpEntry e now)).getTier t) k = none
      exact promoteMove_get_self _ _ _ _
    · show tierGet ((promoteMove (bumpState s t k e now).memoryStore k t (bumpEntry e now)).getTier (nextTier t)) k = some (bumpEntry e now)
      exact promoteMove_get_next _ _ _ _ hne
    · intro u hut hun
      show (promoteMove (bumpState s t k e now).memoryStore k t (bumpEntry e now)).getTier u = s.memoryStore.getTier u
      rw [promoteMove_get_other _ _ _ _ _ hut hun]
      exact bumpState_getTier_ne _ _ _ _ _ _ hut
  · intro ht
    subst ht
    rw [promoteIfNeeded_noop_hot _ _ _ hget1]
    refine ⟨hget1, ?_⟩
    intro u hu
    exact bumpState_getTier_ne _ _ _ _ _ _ hu

/-- The cold-tier entry of the C4 witness: already accessed 10 times, so the
next retrieval crosses the promotion threshold. -/
def promoEntry : ContextEntry :=
  { key := "k", value := .vstr "v", metadata := { timestamp := 0, accessCount := 10, significance := 1, lastAccessed := none } }

/-- The C4 witness state: the entry sits in the cold tier only. -/
def promoState : HyperMindService :=
  { memoryStore := { hot := [], warm := [], cold := [("k", promoEntry)], archived := [] }, scopeStack := [], contextGraph := { nodes := [], edges := [] } }

/-- Witness for C4 at a concrete input: the 11th access of a cold entry moves
it to warm (one step, not to hot) with access count 11. -/
theorem promotion_step_size_witness :
    tierGet ((retrieveContext promoState 5 "k").2.memoryStore.getTier .cold) "k" = none
    ∧ tierGet ((retrieveContext promoState 5 "k").2.memoryStore.getTier .warm) "k" =
        some (bumpEntry promoEntry 5)
    ∧ (bumpEntry promoEntry 5).metadata.accessCount = 11 := by
  have h := promotion_step_size promoState 5 "k" .cold promoEntry rfl rfl (by decide)
  have h2 := h.2.1 (by decide)
  exact ⟨h2.1, h2.2.1, rfl⟩

/-- C7 (retrieve contract): a retrieval of an absent key returns the
not-found sentinel and leaves the state untouched; a retrieval of a present
key hits the first tier of the fixed scan order `hot, warm, cold, archived`
containing it, returns the stored value, increments that entry's access
count, stamps `lastAccessed`, and hands the state to the promotion check —
afterwards the bumped entry is resolvable at some tier.  `retrieveContext` is
a total function: it never raises an error. -/
theorem retrieve_contract (s : HyperMindService) (now : Nat) (k : String) :
    (locate s k = none → retrieveContext s now k = (none, s))
    ∧ (∀ t e, locate s k = some t → tierGet (s.memoryStore.getTier t) k = some e →
        (retrieveContext s now k).1 = some e.value
        ∧ (retrieveContext s now k).2 = promoteIfNeeded (bumpState s t k e now) k t
        ∧ (bumpEntry e now).metadata.accessCount = e.metadata.accessCount + 1
        ∧ (bumpEntry e now).metadata.lastAccessed = some now
        ∧ ∃ t', locate (retrieveContext s now k).2 k = some t'
            ∧ tierGet ((retrieveContext s now k).2.memoryStore.getTier t') k =
                some (bumpEntry e now)) := by
  constructor
  · exact retrieve_miss s now k
  · intro t e hloc hget
    have hh := retrieve_hit s now k t e hloc hget
    refine ⟨by rw [hh], by rw [hh], rfl, rfl, ?_⟩
    obtain ⟨t', h1, h2, _, _⟩ := retrieve_hit_after s now k t e hloc hget
    exact ⟨t', h1, h2⟩

/-- Witness for C7 at concrete inputs: retrieving a missing key from the
empty state returns the sentinel with the state unchanged; retrieving a key
just stored in hot returns its value. -/
theorem retrieve_contract_witness :
    retrieveContext initialState 0 "nope" = (none, initialState)
    ∧ (retrieveContext (storeContext initialState 1 "k" (.vstr "v") {}) 2 "k").1 =
        some (.vstr "v") :=
  ⟨(retrieve_contract initialState 0 "nope").1 rfl,
   ((retrieve_contract (storeContext initialState 1 "k" (.vstr "v") {}) 2 "k").2 .hot
      (mkEntry 1 "k" (.vstr "v") {}) rfl rfl).1⟩

theorem tierGet_mem (t : Tier) (k : String) (e : ContextEntry)
    (h : tierGet t k = some e) : (k, e) ∈ t := by
  induction t with
  | nil => cases h
  | cons hd tl ih =>
    cases hd with
    | mk k1 e1 =>
      by_cases hk : k1 = k
      · subst hk
        simp only [tierGet, if_pos rfl] at h
        cases h
        exact List.mem_cons_self _ _
      · simp only [tierGet, if_neg hk] at h
        exact List.mem_cons_of_mem _ (ih h)

theorem tierGet_of_mem_nodup (t : Tier) (hnd : (t.map Prod.fst).Nodup)
    (p : String × ContextEntry) (hp : p ∈ t) : tierGet t p.1 = some p.2 := by
  induction t with
  | nil => cases hp
  | cons hd tl ih =>
    rcases List.mem_cons.mp hp with hp2 | hp2
    · subst hp2
      cases p with
      | mk pk pe => simp [tierGet]
    · cases hd with
      | mk k1 e1 =>
        have hk : k1 ≠ p.1 := by
          intro hc
          have h1 : p.1 ∈ tl.map Prod.fst := List.mem_map_of_mem Prod.fst hp2
          rw [← hc] at h1
          exact (List.nodup_cons.mp hnd).1 h1
        simp only [tierGet, if_neg hk]
        exact ih (List.nodup_cons.mp hnd).2 hp2

/-- C5 (promotion monotonicity): a retrieval never moves an entry toward
`archived` — the tier where the key resolves afterwards has an index at least
that of the tier where it was found; demotion exists only in the maintenance
pass's hot sweep, where a hot entry is moved (not copied) to warm exactly
when it is older than 24 hours with fewer than 5 accesses, and the sweep
never touches the cold or archived tiers. -/
theorem promotion_monotonicity :
    (∀ (s : HyperMindService) (now : Nat) (k : String) (t : TierName),
        locate s k = some t →
        ∃ t', locate (retrieveContext s now k).2 k = some t'
          ∧ tierIndex t ≤ tierIndex t')
    ∧ (∀ (now : Nat) (m : MemoryStore) (k : String) (e : ContextEntry),
        (m.hot.map Prod.fst).Nodup → tierGet m.hot k = some e →
        (shouldDemote now e = true →
          tierGet (demoteFold now m.hot m).hot k = none
          ∧ tierGet (demoteFold now m.hot m).warm k = some e)
        ∧ (shouldDemote now e = false →
          tierGet (demoteFold now m.hot m).hot k = some e
          ∧ tierGet (demoteFold now m.hot m).warm k = tierGet m.warm k))
    ∧ (∀ (now : Nat) (m : MemoryStore),
        (demoteFold now m.hot m).cold = m.cold
        ∧ (demoteFold now m.hot m).archived = m.archived) := by
  refine ⟨?_, ?_, fun now m => ⟨demoteFold_cold now m.hot m, demoteFold_archived now m.hot m⟩⟩
  · intro s now k t hloc
    obtain ⟨e, hget⟩ := tierGet_isSome_of_has _ _ (locate_some_has s k t hloc)
    obtain ⟨t', h1, _, h3, _⟩ := retrieve_hit_after s now k t e hloc hget
    exact ⟨t', h1, h3⟩
  · intro now m k e hnd hget
    have hmem : (k, e) ∈ m.hot := tierGet_mem _ _ _ hget
    constructor
    · intro hdem
      refine ⟨demoteFold_hot_del now m.hot m k ⟨(k, e), hmem, rfl, hdem⟩, ?_⟩
      exact demoteFold_warm_moved now m.hot m k e hnd hmem hdem
    · intro hdem
      have hkeep : ∀ p ∈ m.hot, p.1 = k → shouldDemote now p.2 = false := by
        intro p hp hpk
        have := tierGet_of_mem_nodup m.hot hnd p hp
        rw [hpk, hget] at this
        cases this
        exact hdem
      refine ⟨?_, demoteFold_warm_keep now m.hot m k hkeep⟩
      rw [demoteFold_hot_keep now m.hot m k hkeep]
      exact hget

/-- The hot entry of the C5 witness: old and rarely accessed, so eligible
for demotion. -/
def demoEntry : ContextEntry :=
  { key := "d", value := .vstr "dv", metadata := { timestamp := 0, accessCount := 2, significance := 1, lastAccessed := none } }

/-- The C5 witness store: the entry sits in the hot tier only. -/
def demoStore : MemoryStore :=
  { hot := [("d", demoEntry)], warm := [], cold := [], archived := [] }

/-- Witness for C5 at a concrete input: two days later the stale hot entry is
moved to warm by the maintenance sweep (gone from hot, present in warm), and
the sweep leaves cold and archived untouched. -/
theorem promotion_monotonicity_witness :
    tierGet (demoteFold 172800000 demoStore.hot demoStore).hot "d" = none
    ∧ tierGet (demoteFold 172800000 demoStore.hot demoStore).warm "d" = some demoEntry
    ∧ (demoteFold 172800000 demoStore.hot demoStore).cold = demoStore.cold := by
  have h := (promotion_monotonicity.2.1 172800000 demoStore "d" demoEntry (by decide)
    rfl).1 (by decide)
  exact ⟨h.1, h.2, (promotion_monotonicity.2.2 172800000 demoStore).1⟩

theorem archiveScope_facts (s : HyperMindService) (F : ScopeFrame) (now : Nat)
    (hh : tierHas s.memoryStore.hot ("scope_" ++ F.id) = false)
    (hw : tierHas s.memoryStore.warm ("scope_" ++ F.id) = false)
    (hc : tierHas s.memoryStore.cold ("scope_" ++ F.id) = false) :
    tierGet (archiveScope s F now).memoryStore.archived ("scope_" ++ F.id) =
      some (mkEntry now ("scope_" ++ F.id) (.vframe F) { tier := some .archived })
    ∧ tierGet (archiveScope s F now).memoryStore.hot ("scope_" ++ F.id) = none
    ∧ tierGet (archiveScope s F now).memoryStore.warm ("scope_" ++ F.id) = none
    ∧ tierGet (archiveScope s F now).memoryStore.cold ("scope_" ++ F.id) = none := by
  unfold archiveScope storeContext
  refine ⟨?_, ?_, ?_, ?_⟩
  · rw [optimizeMemory_archived]
    show tierGet (tierSet (s.memoryStore.getTier .archived) ("scope_" ++ F.id) (mkEntry now ("scope_" ++ F.id) (.vframe F) { tier := some .archived })) ("scope_" ++ F.id) = _
    exact tierGet_tierSet_self _ _ _
  · refine (optimizeMemory_keyfree _ now _ ?_ ?_ ?_).1
    · exact hh
    · exact hw
    · exact hc
  · refine (optimizeMemory_keyfree _ now _ ?_ ?_ ?_).2.1
    · exact hh
    · exact hw
    · exact hc
  · refine (optimizeMemory_keyfree _ now _ ?_ ?_ ?_).2.2
    · exact hh
    · exact hw
    · exact hc

/-- C3 (archival on pop): popping a non-empty stack returns the tail frame
`F`, synchronously places it in the archived tier under key
`"scope_" + F.id` as a fresh entry with default significance 1, after which
retrieving that key returns the frame; the stack no longer contains `F`. -/
theorem archival_on_pop (s : HyperMindService) (now now2 : Nat)
    (init : List ScopeFrame) (F : ScopeFrame)
    (hstack : s.scopeStack = init ++ [F])
    (hh : tierHas s.memoryStore.hot ("scope_" ++ F.id) = false)
    (hw : tierHas s.memoryStore.warm ("scope_" ++ F.id) = false)
    (hc : tierHas s.memoryStore.cold ("scope_" ++ F.id) = false)
    (hF : F ∉ init) :
    (popScope s now).1 = .ok F
    ∧ tierGet (popScope s now).2.memoryStore.archived ("scope_" ++ F.id) =
        some (mkEntry now ("scope_" ++ F.id) (.vframe F) { tier := some .archived })
    ∧ (retrieveContext (popScope s now).2 now2 ("scope_" ++ F.id)).1 = some (.vframe F)
    ∧ F ∉ (popScope s now).2.scopeStack := by
  have hpop := popScope_concat s now init F hstack
  have hfacts := archiveScope_facts { s with scopeStack := init } F now hh hw hc
  rw [hpop]
  refine ⟨rfl, hfacts.1, ?_, ?_⟩
  · show (retrieveContext (archiveScope { s with scopeStack := init } F now) now2
      ("scope_" ++ F.id)).1 = some (.vframe F)
    have hloc : locate (archiveScope { s with scopeStack := init } F now)
        ("scope_" ++ F.id) = some .archived := by
      apply locate_of_indicators
      · show tierHas (archiveScope { s with scopeStack := init } F now).memoryStore.archived ("scope_" ++ F.id) = true
        unfold tierHas
        rw [hfacts.1]
        rfl
      · intro u hu
        cases u with
        | hot =>
          show tierHas (archiveScope { s with scopeStack := init } F now).memoryStore.hot ("scope_" ++ F.id) = false
          unfold tierHas
          rw [hfacts.2.1]
          rfl
        | warm =>
          show tierHas (archiveScope { s with scopeStack := init } F now).memoryStore.warm ("scope_" ++ F.id) = false
          unfold tierHas
          rw [hfacts.2.2.1]
          rfl
        | cold =>
          show tierHas (archiveScope { s with scopeStack := init } F now).memoryStore.cold ("scope_" ++ F.id) = false
          unfold tierHas
          rw [hfacts.2.2.2]
          rfl
        | archived =>
          exfalso
          revert hu
          decide
    rw [retrieve_hit (archiveScope { s with scopeStack := init } F now) now2
      ("scope_" ++ F.id) .archived
      (mkEntry now ("scope_" ++ F.id) (.vframe F) { tier := some .archived })
      hloc hfacts.1]
    rfl
  · show F ∉ (archiveScope { s with scopeStack := init } F now).scopeStack
    rw [archiveScope_scopeStack]
    exact hF

/-- The popped frame of the C3 witness. -/
def frameW3 : ScopeFrame := .mk "w1" (.vstr "c") (.vobj []) 3 none

/-- Witness for C3 at a concrete input: push one frame onto the empty state,
pop it, and retrieve it back from the archive. -/
theorem archival_on_pop_witness :
    (popScope (pushScope initialState (.vstr "c") "w1" 3).2 4).1 = .ok frameW3
    ∧ (retrieveContext (popScope (pushScope initialState (.vstr "c") "w1" 3).2 4).2 5
        ("scope_" ++ frameW3.id)).1 = some (.vframe frameW3) := by
  have h := archival_on_pop (pushScope initialState (.vstr "c") "w1" 3).2 4 5 [] frameW3
    rfl rfl rfl rfl (by simp)
  exact ⟨h.1, h.2.2.1⟩

/-- C6 (global deduplication): the dedup pass leaves the archived tier
untouched; over the iteration order hot→warm→cold (map order within a tier)
the surviving entries are exactly the first occurrence of each value
serialization (`survivors`); consequently each serialization present before
is represented exactly once afterwards (`min 1`), and the entry kept for a
serialization is the first one in iteration order. -/
theorem dedup_global (s : HyperMindService)
    (h1 : (s.memoryStore.hot.map Prod.fst).Nodup)
    (h2 : (s.memoryStore.warm.map Prod.fst).Nodup)
    (h3 : (s.memoryStore.cold.map Prod.fst).Nodup) :
    (deduplicateContexts s).memoryStore.archived = s.memoryStore.archived
    ∧ (deduplicateContexts s).memoryStore.hot ++ (deduplicateContexts s).memoryStore.warm ++ (deduplicateContexts s).memoryStore.cold
        = survivors (s.memoryStore.hot ++ s.memoryStore.warm ++ s.memoryStore.cold) []
    ∧ (∀ v, countSer ((deduplicateContexts s).memoryStore.hot ++ (deduplicateContexts s).memoryStore.warm ++ (deduplicateContexts s).memoryStore.cold) v
        = min 1 (countSer (s.memoryStore.hot ++ s.memoryStore.warm ++ s.memoryStore.cold) v))
    ∧ (∀ v, findSer ((deduplicateContexts s).memoryStore.hot ++ (deduplicateContexts s).memoryStore.warm ++ (deduplicateContexts s).memoryStore.cold) v
        = findSer (s.memoryStore.hot ++ s.memoryStore.warm ++ s.memoryStore.cold) v) := by
  have hhot : (deduplicateContexts s).memoryStore.hot = survivors s.memoryStore.hot [] := by
    show (dedupTier s.memoryStore.hot []).1 = _
    exact dedupTier_eq _ _ h1
  have hwarm : (deduplicateContexts s).memoryStore.warm =
      survivors s.memoryStore.warm (dedupSeen s.memoryStore.hot []) := by
    show (dedupTier s.memoryStore.warm (dedupTier s.memoryStore.hot []).2).1 = _
    rw [dedupTier_snd]
    exact dedupTier_eq _ _ h2
  have hcold : (deduplicateContexts s).memoryStore.cold =
      survivors s.memoryStore.cold
        (dedupSeen s.memoryStore.warm (dedupSeen s.memoryStore.hot [])) := by
    show (dedupTier s.memoryStore.cold
      (dedupTier s.memoryStore.warm (dedupTier s.memoryStore.hot []).2).2).1 = _
    rw [dedupTier_snd, dedupTier_snd]
    exact dedupTier_eq _ _ h3
  have hconcat : (deduplicateContexts s).memoryStore.hot ++
      (deduplicateContexts s).memoryStore.warm ++ (deduplicateContexts s).memoryStore.cold
      = survivors (s.memoryStore.hot ++ s.memoryStore.warm ++ s.memoryStore.cold) [] := by
    rw [hhot, hwarm, hcold, survivors_append (s.memoryStore.hot ++ s.memoryStore.warm)
      s.memoryStore.cold, survivors_append s.memoryStore.hot s.memoryStore.warm,
      dedupSeen_append]
  refine ⟨rfl, hconcat, ?_, ?_⟩
  · intro v
    rw [hconcat, countSer_survivors, if_neg (List.not_mem_nil v)]
  · intro v
    rw [hconcat, findSer_survivors _ _ _ (List.not_mem_nil v)]

/-- First duplicate-valued entry of the C6 witness (key `"x"`, in hot). -/
def dupA : ContextEntry := mkEntry 0 "x" (.vstr "dup") {}

/-- Second duplicate-valued entry of the C6 witness (key `"y"`, in cold). -/
def dupB : ContextEntry := mkEntry 1 "y" (.vstr "dup") {}

/-- The C6 witness state: two entries with identical serialized values under
different keys in hot and cold, plus an archived entry with the same value. -/
def dupState : HyperMindService :=
  { memoryStore := { hot := [("x", dupA)], warm := [], cold := [("y", dupB)], archived := [("z", dupA)] }, scopeStack := [], contextGraph := { nodes := [], edges := [] } }

/-- Witness for C6 at a concrete input: after dedup exactly one of the two
identically-serialized entries survives in hot/warm/cold, and the archived
tier is untouched. -/
theorem dedup_global_witness :
    (deduplicateContexts dupState).memoryStore.archived = dupState.memoryStore.archived
    ∧ countSer ((deduplicateContexts dupState).memoryStore.hot ++
        (deduplicateContexts dupState).memoryStore.warm ++
        (deduplicateContexts dupState).memoryStore.cold) (serializeValue (.vstr "dup")) = 1 := by
  have h := dedup_global dupState (by decide) (by decide) (by decide)
  refine ⟨h.1, ?_⟩
  rw [h.2.2.1 (serializeValue (.vstr "dup"))]
  rfl

end HyperMind
